import Mathlib

/-!
Verification of the Market Configuration Processor (`gp-config-mcp`).

This file gives a shallow embedding of the processor's pure core:
the JSON data model, the fill merge engine (`mergeFill`), the scoped-row
discovery and deletion machinery, the operation executors over an explicit
database state, the destructive-operation safety gate and the vendor-config
loader.  Database effects are modelled by explicit state passing; JSON values
are an inductive tree (JSON has no `undefined`, so only `null`, booleans,
numbers, strings, arrays and objects are modelled; the deep-copy `clone`,
a JSON round-trip in the source, is the identity on such trees).
-/

set_option maxHeartbeats 1000000

namespace GpConfigMcp

/-- JSON values as stored in `jsonb` columns and produced by the YAML loader.
Objects are ordered key/value lists, matching JavaScript object semantics
(insertion order; real JS objects never hold duplicate keys). -/
inductive Json : Type where
  | null : Json
  | bool : Bool → Json
  | num : Rat → Json
  | str : String → Json
  | arr : List Json → Json
  | obj : List (String × Json) → Json

/-- First-match association-list lookup, the semantics of reading a property
of a JS object (`fields[key]`) or a named column of a row. -/
def alookup {α : Type} : List (String × α) → String → Option α
  | [], _ => none
  | (k, v) :: rest, key => if k = key then some v else alookup rest key

/-- Replace the value of the first entry with the given key (JS property
assignment `next[key] = v` for a present key); leaves the list unchanged
when the key is absent. -/
def replaceField {α : Type} : List (String × α) → String → α → List (String × α)
  | [], _, _ => []
  | (k, v) :: rest, key, newV =>
      if k = key then (k, newV) :: rest else (k, v) :: replaceField rest key newV

/-- JavaScript truthiness of a JSON value (`Boolean(v)`): `null`, `false`,
`0` and `""` are falsy, everything else (including `[]` and `{}`) is truthy. -/
def truthy : Json → Bool
  | Json.null => false
  | Json.bool b => b
  | Json.num q => q ≠ 0
  | Json.str s => s ≠ ""
  | Json.arr _ => true
  | Json.obj _ => true

/-- The test `typeof v === "string"`. -/
def Json.isStr : Json → Bool
  | Json.str _ => true
  | _ => false

/-- The predicate `isObject` from the source: a non-null, non-array object. -/
def Json.isObj : Json → Bool
  | Json.obj _ => true
  | _ => false

/-- The value `item[key]` when `item` is an object exposing `key` as a string
(`isObject(item) && typeof item[key] === "string"`), else `none`. -/
def getStrField (item : Json) (key : String) : Option String :=
  match item with
  | Json.obj fields =>
      match alookup fields key with
      | some (Json.str s) => some s
      | _ => none
  | _ => none

/-- The condition `current === null || current === undefined || current === ""`
guarding the replace branch of `mergeFill` (`undefined` does not occur in
JSON trees). -/
def isNullOrEmptyStr : Json → Bool
  | Json.null => true
  | Json.str s => s = ""
  | _ => false

/-- The ordered identity-key candidates of the merge engine. -/
def idKeys : List String := ["id", "product_id", "category_id", "vendor_id", "service_id"]

/-- The `arr.every(...)` half of `detectIdKey`: every element is either not an
object, or does not expose `key` (`!item[key]`, i.e. the value is absent or
falsy), or exposes it as a string. -/
def idKeyEveryOk (a : List Json) (key : String) : Bool :=
  a.all fun item =>
    match item with
    | Json.obj fields =>
        match alookup fields key with
        | some v => !truthy v || v.isStr
        | none => true
    | _ => true

/-- The `arr.some(...)` half of `detectIdKey`: some element exposes `key`
as a string. -/
def idKeyHasAny (a : List Json) (key : String) : Bool :=
  a.any fun item => (getStrField item key).isSome

/-- The helper `detectIdKey` from the array branch of `mergeFill`: the first candidate
key whose `every` check and `hasAny` check both pass. -/
def detectIdKey (a : List Json) : Option String :=
  idKeys.find? fun key => idKeyEveryOk a key && idKeyHasAny a key

/-- Lookup in the `indexById` map: the map is built by `next.forEach` with
`Map.set`, so for duplicate ids the later index wins; absent ids give
`none` (`Map.get` returning `undefined`). -/
def indexByIdGet (key : String) (items : List Json) (id : String) : Option Nat :=
  (items.enum.filterMap fun p =>
    if getStrField p.2 key = some id then some p.1 else none).getLast?

/-- The `{ value, changed }` record returned by `mergeFill`. -/
structure MergeResult where
  value : Json
  changed : Bool

mutual

/-- The merge engine `mergeFill(current, incoming)` from the source: the recursive fill-only
merge.  `clone` (a JSON round-trip) is the identity on JSON trees. -/
def mergeFill (current incoming : Json) : MergeResult :=
  if isNullOrEmptyStr current then ⟨incoming, true⟩
  else
    match current, incoming with
    | Json.arr cs, Json.arr is =>
        if cs.isEmpty && !is.isEmpty then ⟨Json.arr is, true⟩
        else
          match (detectIdKey cs).orElse (fun _ => detectIdKey is) with
          | none => ⟨Json.arr cs, false⟩
          | some key =>
              let r := mergeFillArrayLoop key cs cs false is
              ⟨Json.arr r.1, r.2⟩
    | Json.obj cf, Json.obj inc =>
        let r := mergeFillObjectLoop cf false inc
        ⟨Json.obj r.1, r.2⟩
    | _, _ => ⟨current, false⟩
termination_by sizeOf incoming

/-- The `for (const incomingItem of incoming)` loop of the array branch:
`orig` is the snapshot of `current` the `indexById` map was built from
(the map is never updated inside the loop), `next` the evolving result. -/
def mergeFillArrayLoop (key : String) (orig next : List Json) (changed : Bool) :
    List Json → List Json × Bool
  | [] => (next, changed)
  | item :: rest =>
      match getStrField item key with
      | none => mergeFillArrayLoop key orig next changed rest
      | some id =>
          match indexByIdGet key orig id with
          | none => mergeFillArrayLoop key orig (next ++ [item]) true rest
          | some j =>
              let m := mergeFill (next.getD j Json.null) item
              if m.changed then mergeFillArrayLoop key orig (next.set j m.value) true rest
              else mergeFillArrayLoop key orig next changed rest
termination_by items => sizeOf items

/-- The `for (const [key, incomingValue] of Object.entries(incoming))` loop
of the object branch. -/
def mergeFillObjectLoop (next : List (String × Json)) (changed : Bool) :
    List (String × Json) → List (String × Json) × Bool
  | [] => (next, changed)
  | (k, iv) :: rest =>
      match alookup next k with
      | none => mergeFillObjectLoop (next ++ [(k, iv)]) true rest
      | some cv =>
          let m := mergeFill cv iv
          if m.changed then mergeFillObjectLoop (replaceField next k m.value) true rest
          else mergeFillObjectLoop next changed rest
termination_by fields => sizeOf fields

end

/-! ## Paths into JSON documents -/

/-- One step of a path into a JSON tree: an array index or an object field. -/
inductive PathStep : Type where
  | idx : Nat → PathStep
  | fld : String → PathStep

/-- Follow a path into a document: array steps index into arrays, field steps
look up the first matching key of an object; any mismatch yields `none`. -/
def getPath : Json → List PathStep → Option Json
  | j, [] => some j
  | Json.arr items, PathStep.idx n :: rest =>
      match items.get? n with
      | some x => getPath x rest
      | none => none
  | Json.obj fields, PathStep.fld k :: rest =>
      match alookup fields k with
      | some v => getPath v rest
      | none => none
  | _, _ :: _ => none

/-- A non-empty scalar in the sense of the fill-monotonicity invariant:
a leaf value that is not `null`, not `undefined` (absent from JSON trees)
and not the empty string.  Booleans and numbers, including `false` and `0`,
are non-empty scalars. -/
def nonEmptyScalar : Json → Bool
  | Json.bool _ => true
  | Json.num _ => true
  | Json.str s => s ≠ ""
  | _ => false

/-- The relation `Preserves a b`: every path of `a` that holds a non-empty scalar holds
the same scalar in `b`. -/
def Preserves (a b : Json) : Prop :=
  ∀ p v, getPath a p = some v → nonEmptyScalar v = true → getPath b p = some v

/-! ## Database model

A row is a record of named column values; text columns (`id`,
`sales_channel_id`, the storage-table key columns) are modelled as JSON
strings.  A database is the storage table owned by the processor, the other
public tables, and the `information_schema.columns` rows listing the `jsonb`
columns of public tables (as returned, ordered by table and column name). -/
def STORAGE_TABLE : String := "gp_market_runtime_config"

def CHANNEL_ASSIGNMENT_TABLES : List String :=
  ["product_sales_channel", "publishable_api_key_sales_channel", "sales_channel_stock_location"]

/-- A row of a public (non-storage) table: named column values. -/
abbrev Row := List (String × Json)

/-- A row of the storage table `gp_market_runtime_config`.  The `section`
column is named `sectionName` because `section` is a Lean keyword. -/
structure StorageRow where
  instance_id : String
  market_id : String
  sectionName : String
  record_key : String
  data : Json

/-- The database: the processor-owned storage table, the other public
tables, and the `information_schema` listing of `(table, column)` pairs
whose column type is `jsonb`. -/
structure Db where
  storage : List StorageRow
  tables : List (String × List Row)
  jsonbCols : List (String × String)

/-- The SQL predicate `col ->> 'gp_market_id' = marketId` on one row:
the column holds a JSON object whose `gp_market_id` attribute is the given
market string (`->>` of a non-object or of an absent attribute is SQL `NULL`
and never compares equal). -/
def colScopeMatch (row : Row) (col marketId : String) : Bool :=
  match alookup row col with
  | some (Json.obj fs) =>
      match alookup fs "gp_market_id" with
      | some (Json.str s) => s = marketId
      | _ => false
  | _ => false

/-- All rows of a table, empty when the table does not exist. -/
def getTableRows (tables : List (String × List Row)) (t : String) : List Row :=
  (alookup tables t).getD []

/-- The check `tableExists`: membership in `information_schema.tables`. -/
def tableExists (db : Db) (t : String) : Bool :=
  (alookup db.tables t).isSome

/-- The query `countRows`: `SELECT count(*) FROM t WHERE pred`. -/
def countRowsWhere (tables : List (String × List Row)) (t : String) (pred : Row → Bool) : Nat :=
  ((getTableRows tables t).filter pred).length

/-- The statement `deleteRows`: `DELETE FROM t WHERE pred`, returning the new table map and
the number of rows removed. -/
def deleteRowsWhere :
    List (String × List Row) → String → (Row → Bool) → List (String × List Row) × Nat
  | [], _, _ => ([], 0)
  | (name, rows) :: rest, t, pred =>
      if name = t then
        ((name, rows.filter fun r => !pred r) :: rest, (rows.filter pred).length)
      else
        let r := deleteRowsWhere rest t pred
        ((name, rows) :: r.1, r.2)

/-- The discoverer `discoverMetadataScopedTables`: every `jsonb` column of a public table
other than the storage table whose scope-match row count is positive. -/
def discoverMetadataScopedTables (db : Db) (marketId : String) : List (String × String) :=
  db.jsonbCols.filter fun tc =>
    tc.1 != STORAGE_TABLE &&
      decide (0 < countRowsWhere db.tables tc.1 fun r => colScopeMatch r tc.2 marketId)

/-- The query `getScopedSalesChannelIds`: the ids of `sales_channel` rows whose
`metadata ->> 'gp_market_id'` equals the market (empty when the table is
absent).  Ids are text; the source's `String(row.id)` plus `filter(Boolean)`
drops empty ids. -/
def getScopedSalesChannelIds (db : Db) (marketId : String) : List String :=
  if tableExists db "sales_channel" then
    (getTableRows db.tables "sales_channel").filterMap fun r =>
      if colScopeMatch r "metadata" marketId then
        match alookup r "id" with
        | some (Json.str s) => if s != "" then some s else none
        | _ => none
      else none
  else []

/-- Insertion-order deduplication, the iteration order of a JS `Set` filled
by successive `add` calls. -/
def dedupKeepFirst (l : List String) : List String :=
  l.foldl (fun acc x => if x ∈ acc then acc else acc ++ [x]) []

/-- The order `buildScopedDeleteOrder`: assignment tables first, then metadata-scoped
tables, deduplicated in insertion order, with `sales_channel` moved to the
end when present. -/
def buildScopedDeleteOrder (metadataTables assignmentTables : List String) : List String :=
  let all := dedupKeepFirst (assignmentTables ++ metadataTables)
  let withoutSalesChannel := all.filter fun t => t != "sales_channel"
  if "sales_channel" ∈ all then withoutSalesChannel ++ ["sales_channel"]
  else withoutSalesChannel

/-- The `sales_channel_id = ANY(salesChannelIds)` predicate of the
assignment-table deletions. -/
def assignmentRowMatches (scIds : List String) (r : Row) : Bool :=
  match alookup r "sales_channel_id" with
  | some (Json.str s) => scIds.contains s
  | _ => false

/-- State threaded through the deletion loop of `deleteScopedDbConfig`. -/
structure ScopedDeleteState where
  tables : List (String × List Row)
  deleted : Nat

/-- One iteration of the `for (const tableName of deleteOrder)` loop of
`deleteScopedDbConfig`. -/
def scopedDeleteStep (marketId : String) (dryRun : Bool) (scIds : List String)
    (assignmentTables : List String) (metadataScoped : List (String × String))
    (st : ScopedDeleteState) (t : String) : ScopedDeleteState :=
  if t ∈ assignmentTables then
    if scIds = [] then st
    else if dryRun then
      ⟨st.tables, st.deleted + countRowsWhere st.tables t (assignmentRowMatches scIds)⟩
    else
      let r := deleteRowsWhere st.tables t (assignmentRowMatches scIds)
      ⟨r.1, st.deleted + r.2⟩
  else
    match metadataScoped.find? (fun m => m.1 == t) with
    | none => st
    | some tc =>
        if dryRun then
          ⟨st.tables, st.deleted + countRowsWhere st.tables t fun r => colScopeMatch r tc.2 marketId⟩
        else
          let r := deleteRowsWhere st.tables t fun r => colScopeMatch r tc.2 marketId
          ⟨r.1, st.deleted + r.2⟩

/-- The cleanup `deleteScopedDbConfig`: discover the scoped tables, derive the deletion
order, and delete (or, in dry-run, count) the externally scoped rows,
returning the new database and the number added to `report.deleted`. -/
def deleteScopedDbConfig (db : Db) (marketId : String) (dryRun : Bool) : Db × Nat :=
  let metadataScoped := discoverMetadataScopedTables db marketId
  let metadataTables := metadataScoped.map Prod.fst
  let scIds := getScopedSalesChannelIds db marketId
  let assignmentTables :=
    if scIds ≠ [] then CHANNEL_ASSIGNMENT_TABLES.filter (tableExists db) else []
  let order := buildScopedDeleteOrder metadataTables assignmentTables
  let final := order.foldl
    (scopedDeleteStep marketId dryRun scIds assignmentTables metadataScoped) ⟨db.tables, 0⟩
  (⟨db.storage, final.tables, db.jsonbCols⟩, final.deleted)

/-! ## Storage-table operations and operation executors -/

/-- Primary-key equality of a storage row against `(instance_id, market_id,
section, record_key)`. -/
def storagePkMatches (r : StorageRow) (i m s k : String) : Bool :=
  r.instance_id == i && r.market_id == m && r.sectionName == s && r.record_key == k

/-- The query `getExistingRows`: all storage rows of `(instance_id, market_id)`. -/
def getExistingRows (storage : List StorageRow) (i m : String) : List StorageRow :=
  storage.filter fun r => r.instance_id == i && r.market_id == m

/-- The upsert `upsertRow`: `INSERT ... ON CONFLICT (pk) DO UPDATE SET data = excluded.data`;
replaces the primary-key match in place or appends a new row. -/
def upsertRow : List StorageRow → String → String → String → String → Json → List StorageRow
  | [], i, m, s, k, d => [⟨i, m, s, k, d⟩]
  | r :: rest, i, m, s, k, d =>
      if storagePkMatches r i m s k then ⟨i, m, s, k, d⟩ :: rest
      else r :: upsertRow rest i m s k d

/-- The statement `DELETE FROM gp_market_runtime_config WHERE instance_id = $1 AND
market_id = $2`, with the removed-row count. -/
def deleteStorageRows (storage : List StorageRow) (i m : String) : List StorageRow × Nat :=
  (storage.filter fun r => !(r.instance_id == i && r.market_id == m),
   (getExistingRows storage i m).length)

/-- An incoming row derived from the loaded files (the `StoredRow` type of
the source, before instance and market are attached). -/
structure StoredRow where
  sectionName : String
  record_key : String
  data : Json

/-- The loaded input configuration. -/
structure InputConfig where
  market : Option Json
  products : Option Json
  vendors : List (String × Json)
  warnings : List String

/-- The builder `makeIncomingRows`: market row, products row, then one row per vendor in
directory-listing order. -/
def makeIncomingRows (input : InputConfig) : List StoredRow :=
  (match input.market with
   | some m => [⟨"market", "market", m⟩]
   | none => []) ++
  (match input.products with
   | some p => [⟨"products", "products", p⟩]
   | none => []) ++
  input.vendors.map fun v => ⟨"vendor_products", v.1, v.2⟩

/-- The report of one CLI run (counters and export info; the fixed echo
fields `ok`, `operation`, `instance_id`, `market_id`, `dry_run` and the
warning list are omitted). -/
structure Report where
  inserted : Nat
  updated : Nat
  skipped : Nat
  deleted : Nat
  output_path : Option String
  exported_tables : Option (List String)

/-- The key of the `existingMap` of `executeFill`. -/
def rowMapKey (s k : String) : String := s ++ ":" ++ k

/-- Lookup in the `existingMap` built by `new Map(existingRows.map(...))`:
for duplicate keys the later entry wins. -/
def existingMapGet (existing : List StorageRow) (key : String) : Option StorageRow :=
  (existing.filter fun r => rowMapKey r.sectionName r.record_key == key).getLast?

/-- State threaded through the incoming-row loop of `executeFill`. -/
structure FillState where
  storage : List StorageRow
  inserted : Nat
  updated : Nat
  skipped : Nat

/-- One iteration of the `for (const incoming of makeIncomingRows(input))`
loop of `executeFill`. -/
def executeFillStep (i m : String) (dryRun : Bool) (existing : List StorageRow)
    (st : FillState) (row : StoredRow) : FillState :=
  match existingMapGet existing (rowMapKey row.sectionName row.record_key) with
  | none =>
      ⟨(if dryRun then st.storage
        else upsertRow st.storage i m row.sectionName row.record_key row.data),
       st.inserted + 1, st.updated, st.skipped⟩
  | some ex =>
      let merged := mergeFill ex.data row.data
      if merged.changed then
        ⟨(if dryRun then st.storage
          else upsertRow st.storage i m row.sectionName row.record_key merged.value),
         st.inserted, st.updated + 1, st.skipped⟩
      else ⟨st.storage, st.inserted, st.updated, st.skipped + 1⟩

/-- The operation `executeFill`: upsert absent rows, merge present ones, count
inserted/updated/skipped. -/
def executeFill (db : Db) (i m : String) (incoming : List StoredRow) (dryRun : Bool) :
    Db × Report :=
  let existing := getExistingRows db.storage i m
  let final := incoming.foldl (executeFillStep i m dryRun existing) ⟨db.storage, 0, 0, 0⟩
  (⟨final.storage, db.tables, db.jsonbCols⟩,
   ⟨final.inserted, final.updated, final.skipped, 0, none, none⟩)

/-- The operation `executeOverwrite`: count and delete the stored rows, run the scoped
cleanup, then insert every incoming row (`inserted` is incremented once per
incoming row even in dry-run). -/
def executeOverwrite (db : Db) (i m : String) (incoming : List StoredRow) (dryRun : Bool) :
    Db × Report :=
  let existing := getExistingRows db.storage i m
  let storage1 := if dryRun then db.storage else (deleteStorageRows db.storage i m).1
  let scopedDel := deleteScopedDbConfig ⟨storage1, db.tables, db.jsonbCols⟩ m dryRun
  let finalStorage :=
    if dryRun then scopedDel.1.storage
    else incoming.foldl
      (fun s row => upsertRow s i m row.sectionName row.record_key row.data) scopedDel.1.storage
  (⟨finalStorage, scopedDel.1.tables, scopedDel.1.jsonbCols⟩,
   ⟨incoming.length, 0, 0, existing.length + scopedDel.2, none, none⟩)

/-- The operation `executeDelete`: the cleanup of `executeOverwrite` without the insert
phase. -/
def executeDelete (db : Db) (i m : String) (dryRun : Bool) : Db × Report :=
  let existing := getExistingRows db.storage i m
  let storage1 := if dryRun then db.storage else (deleteStorageRows db.storage i m).1
  let scopedDel := deleteScopedDbConfig ⟨storage1, db.tables, db.jsonbCols⟩ m dryRun
  (scopedDel.1, ⟨0, 0, 0, existing.length + scopedDel.2, none, none⟩)

/-- JS object property assignment `snapshot[t] = rows`: replace the first
entry with that key, else append. -/
def objSet {α : Type} : List (String × α) → String → α → List (String × α)
  | [], k, v => [(k, v)]
  | (k', v') :: rest, k, v =>
      if k' = k then (k, v) :: rest else (k', v') :: objSet rest k v

/-- The snapshot `exportScopedDbSnapshot`: the scoped rows of every discovered
metadata table, plus the assignment-table rows linked to the scoped sales
channels; returns the snapshot and its table names sorted lexicographically
(`Object.keys(snapshot).sort()`). -/
def exportScopedDbSnapshot (db : Db) (marketId : String) :
    List (String × List Row) × List String :=
  let metadataScoped := discoverMetadataScopedTables db marketId
  let scIds := getScopedSalesChannelIds db marketId
  let snap0 := metadataScoped.foldl
    (fun acc tc =>
      objSet acc tc.1 ((getTableRows db.tables tc.1).filter fun r => colScopeMatch r tc.2 marketId))
    []
  let snap1 :=
    if scIds ≠ [] then
      CHANNEL_ASSIGNMENT_TABLES.foldl
        (fun acc t =>
          if tableExists db t then
            objSet acc t ((getTableRows db.tables t).filter (assignmentRowMatches scIds))
          else acc)
        snap0
    else snap0
  (snap1, (snap1.map Prod.fst).insertionSort fun a b => a ≤ b)

/-- The YAML document written by `export` (the `meta` fields are inlined). -/
structure ExportPayload where
  schema_version : String
  generated_at : String
  instance_id : String
  market_id : String
  market : Option Json
  products : Option Json
  vendors : List (String × Json)
  db_snapshot : List (String × List Row)

/-- The operation `executeExport`: read the stored rows and the scoped snapshot, compose
the payload; in dry-run only counts are reported and nothing is written,
otherwise the payload is written to the output path.  File writes are
modelled as the returned `(path, payload)` list. -/
def executeExport (db : Db) (i m : String) (outputPath : Option String)
    (defaultPath generatedAt : String) (dryRun : Bool) :
    Report × List (String × ExportPayload) :=
  let rows := getExistingRows db.storage i m
  let market := (rows.find? fun r => r.sectionName == "market" && r.record_key == "market").map
    StorageRow.data
  let products := (rows.find? fun r => r.sectionName == "products" && r.record_key == "products").map
    StorageRow.data
  let vendors := (rows.filter fun r => r.sectionName == "vendor_products").map
    fun r => (r.record_key, r.data)
  let scopedSnap := exportScopedDbSnapshot db m
  let outPath := outputPath.getD defaultPath
  if dryRun then
    (⟨0, 0, rows.length, 0, some outPath, some scopedSnap.2⟩, [])
  else
    (⟨rows.length, 0, 0, 0, some outPath, some scopedSnap.2⟩,
     [(outPath, ⟨"market-runtime-config.v1", generatedAt, i, m, market, products, vendors,
       scopedSnap.1⟩)])

/-! ## Safety gate and CLI prelude -/

/-- The four operations.  The `export` operation is named `exportOp`
because `export` is a Lean keyword. -/
inductive Operation : Type where
  | fill | overwrite | exportOp | delete
  deriving DecidableEq

/-- The failures of the pre-connection phase of `runCli`. -/
inductive CliError : Type where
  | prodBlocked | confirmRequired | interactiveConfirmRequired | interactiveMismatch
  | missingDbUrl
  deriving DecidableEq

/-- The CLI arguments relevant to the safety gate. -/
structure CliArgs where
  instanceId : String
  marketId : String
  operation : Operation
  dbUrl : Option String
  confirm : Bool
  force : Bool
  dryRun : Bool

/-- The case-insensitive regex test `/(prod|production)$/i.test(instanceId)`:
the lowercased instance id ends with `prod` or with `production`.  Lowercasing
and the suffix test are expressed over the character list of the string,
the kernel-transparent equivalent of `String.toLower` and `String.endsWith`. -/
def isProdLike (instanceId : String) : Bool :=
  let lower := instanceId.data.map Char.toLower
  "prod".data.isSuffixOf lower || "production".data.isSuffixOf lower

/-- The guard `ensureSafeDestructiveOperation`: destructive operations on a prod-like
instance are blocked unless `GP_ALLOW_PROD_MUTATIONS` is the literal string
`"true"`. -/

def ensureSafeDestructiveOperation (args : CliArgs) (envAllowProdMutations : Option String) :
    Except CliError Unit :=
  if args.operation = Operation.overwrite ∨ args.operation = Operation.delete then
    if isProdLike args.instanceId && !(envAllowProdMutations == some "true") then
      Except.error CliError.prodBlocked
    else Except.ok ()
  else Except.ok ()

/-- The gate `requireConfirmFlags`: `overwrite` and `delete` require `--confirm` or
`--force`. -/
def requireConfirmFlags (args : CliArgs) : Except CliError Unit :=
  if args.operation = Operation.overwrite ∧ ¬(args.confirm ∨ args.force) then
    Except.error CliError.confirmRequired
  else if args.operation = Operation.delete ∧ ¬(args.confirm ∨ args.force) then
    Except.error CliError.confirmRequired
  else Except.ok ()

/-- The gate `requireInteractiveDeleteConfirmation`: for `delete` without `--force`,
`--confirm` plus an interactive re-entry of the market id is required;
`stdinLine` is the line read from stdin (`""` on EOF). -/
def requireInteractiveDeleteConfirmation (args : CliArgs) (stdinLine : String) :
    Except CliError Unit :=
  if args.operation ≠ Operation.delete ∨ args.force then Except.ok ()
  else if ¬args.confirm then Except.error CliError.interactiveConfirmRequired
  else if stdinLine.trim = args.marketId then Except.ok ()
  else Except.error CliError.interactiveMismatch

/-- The pre-connection phase of `runCli`, in source order: safety gate,
confirm flags, interactive confirmation, database-URL resolution
(`args.dbUrl || env.DATABASE_URL`, the empty string being falsy).  The pg
pool is created, and a connection checked out, only after this phase
succeeds. -/
def runCliPrelude (args : CliArgs) (envAllowProdMutations envDatabaseUrl : Option String)
    (stdinLine : String) : Except CliError Unit := do
  let _ ← ensureSafeDestructiveOperation args envAllowProdMutations
  let _ ← requireConfirmFlags args
  let _ ← requireInteractiveDeleteConfirmation args stdinLine
  let dbUrl := ((args.dbUrl.filter fun s => s != "").orElse
    fun _ => envDatabaseUrl.filter fun s => s != "")
  match dbUrl with
  | some _ => Except.ok ()
  | none => Except.error CliError.missingDbUrl

/-- Whether `runCli` reaches the point where the database connection pool is
used: exactly when the pre-connection phase succeeds. -/
def runCliConnectsDb (args : CliArgs) (envAllowProdMutations envDatabaseUrl : Option String)
    (stdinLine : String) : Bool :=
  match runCliPrelude args envAllowProdMutations envDatabaseUrl stdinLine with
  | Except.ok _ => true
  | Except.error _ => false

/-! ## Vendor-config loader -/

/-- A directory entry of `vendors/` as seen by `readdirSync`:
its name, whether it is a directory, and the parsed `products.yaml`
underneath it (`none` when that file is missing). -/
structure VendorEntry where
  name : String
  isDirectory : Bool
  productsFile : Option Json

/-- The vendor part of the loaded input configuration. -/
structure VendorLoadResult where
  vendors : List (String × Json)
  warnings : List String

/-- The `for (const vendorEntry of fs.readdirSync(vendorsDir))` loop of
`loadInputConfig`: skip non-directories, warn about missing product files,
validate and collect the rest under the directory name.  Schema validation
is abstracted by the `validateVendorProducts` predicate; a failed validation
aborts the load. -/
def loadVendorConfigs (validateVendorProducts : Json → Bool) :
    List VendorEntry → Except String VendorLoadResult
  | [] => Except.ok ⟨[], []⟩
  | e :: rest =>
      if !e.isDirectory then loadVendorConfigs validateVendorProducts rest
      else
        match e.productsFile with
        | none => do
            let r ← loadVendorConfigs validateVendorProducts rest
            Except.ok ⟨r.vendors, ("Missing file: vendors/" ++ e.name ++ "/products.yaml") :: r.warnings⟩
        | some doc =>
            if validateVendorProducts doc then do
              let r ← loadVendorConfigs validateVendorProducts rest
              Except.ok ⟨(e.name, doc) :: r.vendors, r.warnings⟩
            else Except.error ("Schema validation failed for vendors/" ++ e.name ++ "/products.yaml")

/-- Data stored under a primary key, read via the first matching row. -/
def storageLookup (storage : List StorageRow) (i m s k : String) : Option Json :=
  (storage.find? fun r => storagePkMatches r i m s k).map StorageRow.data

/-- Array-free well-formed documents: no array node anywhere, and object key
lists are duplicate-free (as JavaScript objects always are). -/
inductive ArrayFreeDoc : Json → Prop where
  | null : ArrayFreeDoc Json.null
  | bool (b : Bool) : ArrayFreeDoc (Json.bool b)
  | num (q : Rat) : ArrayFreeDoc (Json.num q)
  | str (s : String) : ArrayFreeDoc (Json.str s)
  | obj (fields : List (String × Json)) :
      (∀ kv ∈ fields, ArrayFreeDoc kv.2) → (fields.map Prod.fst).Nodup →
      ArrayFreeDoc (Json.obj fields)

/-- The stored document of the idempotence counterexample. -/
def mergeIdemCurrent : Json := Json.arr [Json.obj [("product_id", Json.str "a")]]

/-- The incoming document of the idempotence counterexample: its first
element exposes only `id`, its second element matches the stored element by
`product_id` and carries an `id` of its own. -/
def mergeIdemIncoming : Json :=
  Json.arr [Json.obj [("id", Json.str "x")],
    Json.obj [("product_id", Json.str "a"), ("id", Json.str "y")]]

/-- Spec wording: an element exposes `key` as a string. -/
def specExposesStr (x : Json) (k : String) : Bool :=
  (getStrField x k).isSome

/-- Original spec wording: an element exposes `key` as a non-string type
(the key is present with a non-string value). -/
def specExposesNonStr (x : Json) (k : String) : Bool :=
  match x with
  | Json.obj fs =>
      match alookup fs k with
      | some v => !v.isStr
      | none => false
  | _ => false

/-- The claim's qualification rule, as stated: at least one element exposes
the key as a string, and no element exposes it as a non-string type. -/
def specQualifiesOrig (a : List Json) (k : String) : Bool :=
  (a.any fun x => specExposesStr x k) && !(a.any fun x => specExposesNonStr x k)

/-- Amended wording: an element exposes `key` as a truthy non-string value
(a falsy value — `null`, `false`, `0`, `""` — does not count). -/
def specExposesTruthyNonStr (x : Json) (k : String) : Bool :=
  match x with
  | Json.obj fs =>
      match alookup fs k with
      | some v => truthy v && !v.isStr
      | none => false
  | _ => false

/-- The amended qualification rule: at least one element exposes the key as
a string, and no element exposes it as a truthy non-string value. -/
def specQualifiesAmended (a : List Json) (k : String) : Bool :=
  (a.any fun x => specExposesStr x k) && !(a.any fun x => specExposesTruthyNonStr x k)

/-- The arrays of the identity-key counterexample: `id` is exposed as the
falsy number `0` by one element of each array. -/
def ceDetectCurrent : List Json :=
  [Json.obj [("id", Json.str "a")], Json.obj [("id", Json.num 0)]]

def ceDetectIncoming : List Json :=
  [Json.obj [("id", Json.str "b")], Json.obj [("id", Json.num 0)]]

/-- The vendor directory of the C9 counterexample: directory `v1` whose
`products.yaml` carries `vendor_id: "other"`. -/
def ceVendorEntries : List VendorEntry :=
  [⟨"v1", true, some (Json.obj [("vendor_id", Json.str "other")])⟩]

/-- The number of rows one iteration of the scoped-deletion loop adds to
`report.deleted` for table `t`, computed against a table state. -/
def scopedTableWeight (marketId : String) (scIds : List String)
    (assignmentTables : List String) (metadataScoped : List (String × String))
    (tables : List (String × List Row)) (t : String) : Nat :=
  if t ∈ assignmentTables then
    (if scIds = [] then 0 else countRowsWhere tables t (assignmentRowMatches scIds))
  else
    match metadataScoped.find? (fun m => m.1 == t) with
    | none => 0
    | some tc => countRowsWhere tables t fun r => colScopeMatch r tc.2 marketId

/-- The database of the C5 witness: three stored rows for
`(gp-dev, bonbeauty)` and a metadata-scoped table `brand` with five
matching rows (the spec's delete dry-run scenario). -/
def ceDeleteDb : Db :=
  ⟨[⟨"gp-dev", "bonbeauty", "market", "market", Json.obj []⟩,
    ⟨"gp-dev", "bonbeauty", "products", "products", Json.obj []⟩,
    ⟨"gp-dev", "bonbeauty", "vendor_products", "v1", Json.obj []⟩],
   [("brand",
     [[("metadata", Json.obj [("gp_market_id", Json.str "bonbeauty")])],
      [("metadata", Json.obj [("gp_market_id", Json.str "bonbeauty")])],
      [("metadata", Json.obj [("gp_market_id", Json.str "bonbeauty")])],
      [("metadata", Json.obj [("gp_market_id", Json.str "bonbeauty")])],
      [("metadata", Json.obj [("gp_market_id", Json.str "bonbeauty")])]])],
   [("brand", "metadata")]⟩

/-- The database of the C3 counterexample: a sales channel scoped to market
`m`, and an assignment table `product_sales_channel` that has a `jsonb`
column with NO row matching the scope predicate, yet holds a row linked to
the scoped channel. -/
def ceAssignDb : Db :=
  ⟨[],
   [("sales_channel",
     [[("id", Json.str "sc1"), ("metadata", Json.obj [("gp_market_id", Json.str "m")])]]),
    ("product_sales_channel",
     [[("sales_channel_id", Json.str "sc1"), ("metadata", Json.obj [])]])],
   [("product_sales_channel", "metadata"), ("sales_channel", "metadata")]⟩

/-- The database of the C3 witness: table `brand` has a `jsonb` column but
no rows, table `shop` holds a scoped row that `delete` removes; `brand` is
untouched. -/
def ceScopeDb : Db :=
  ⟨[],
   [("brand", []),
    ("shop", [[("metadata", Json.obj [("gp_market_id", Json.str "m")])]])],
   [("brand", "metadata"), ("shop", "metadata")]⟩

/-! ## Theorems -/

theorem mergeFill_nullish {c : Json} (i : Json) (h : isNullOrEmptyStr c = true) :
    mergeFill c i = ⟨i, true⟩ := by
  cases c <;> simp_all [mergeFill, isNullOrEmptyStr]

theorem mergeFill_arr_arr (cs is : List Json) :
    mergeFill (Json.arr cs) (Json.arr is) =
      if cs.isEmpty && !is.isEmpty then ⟨Json.arr is, true⟩
      else
        match (detectIdKey cs).orElse (fun _ => detectIdKey is) with
        | none => ⟨Json.arr cs, false⟩
        | some key =>
            let r := mergeFillArrayLoop key cs cs false is
            ⟨Json.arr r.1, r.2⟩ := by
  rw [mergeFill]
  rfl

theorem mergeFill_obj_obj (cf inc : List (String × Json)) :
    mergeFill (Json.obj cf) (Json.obj inc) =
      ⟨Json.obj (mergeFillObjectLoop cf false inc).1, (mergeFillObjectLoop cf false inc).2⟩ := by
  rw [mergeFill]
  rfl

theorem arrLoop_nil (key : String) (orig next : List Json) (ch : Bool) :
    mergeFillArrayLoop key orig next ch [] = (next, ch) := by
  rw [mergeFillArrayLoop]

theorem arrLoop_cons_skip {item : Json} {key : String} (orig next : List Json) (ch : Bool)
    (rest : List Json) (h : getStrField item key = none) :
    mergeFillArrayLoop key orig next ch (item :: rest) =
      mergeFillArrayLoop key orig next ch rest := by
  rw [mergeFillArrayLoop, h]

theorem arrLoop_cons_append {item : Json} {key : String} {id : String} (orig next : List Json)
    (ch : Bool) (rest : List Json) (h : getStrField item key = some id)
    (h2 : indexByIdGet key orig id = none) :
    mergeFillArrayLoop key orig next ch (item :: rest) =
      mergeFillArrayLoop key orig (next ++ [item]) true rest := by
  rw [mergeFillArrayLoop, h]
  simp [h2]

theorem arrLoop_cons_found {item : Json} {key : String} {id : String} {j : Nat}
    (orig next : List Json) (ch : Bool) (rest : List Json)
    (h : getStrField item key = some id) (h2 : indexByIdGet key orig id = some j) :
    mergeFillArrayLoop key orig next ch (item :: rest) =
      (if (mergeFill (next.getD j Json.null) item).changed then
        mergeFillArrayLoop key orig (next.set j (mergeFill (next.getD j Json.null) item).value)
          true rest
      else mergeFillArrayLoop key orig next ch rest) := by
  rw [mergeFillArrayLoop, h]
  simp [h2]

theorem objLoop_nil (next : List (String × Json)) (ch : Bool) :
    mergeFillObjectLoop next ch [] = (next, ch) := by
  rw [mergeFillObjectLoop]

theorem objLoop_cons_absent {k : String} {iv : Json} (next : List (String × Json)) (ch : Bool)
    (rest : List (String × Json)) (h : alookup next k = none) :
    mergeFillObjectLoop next ch ((k, iv) :: rest) =
      mergeFillObjectLoop (next ++ [(k, iv)]) true rest := by
  rw [mergeFillObjectLoop, h]

theorem objLoop_cons_present {k : String} {iv cv : Json} (next : List (String × Json)) (ch : Bool)
    (rest : List (String × Json)) (h : alookup next k = some cv) :
    mergeFillObjectLoop next ch ((k, iv) :: rest) =
      (if (mergeFill cv iv).changed then
        mergeFillObjectLoop (replaceField next k (mergeFill cv iv).value) true rest
      else mergeFillObjectLoop next ch rest) := by
  rw [mergeFillObjectLoop, h]

theorem json_sizeOf_pos (j : Json) : 0 < sizeOf j := by
  cases j <;> simp

theorem preserves_refl (a : Json) : Preserves a a := fun _ _ h _ => h

theorem preserves_trans {a b c : Json} (h1 : Preserves a b) (h2 : Preserves b c) :
    Preserves a c := fun p v hp hs => h2 p v (h1 p v hp hs) hs

theorem preserves_of_nullish {c : Json} (h : isNullOrEmptyStr c = true) (b : Json) :
    Preserves c b := by
  intro p v hp hs
  cases c with
  | null =>
      cases p with
      | nil => simp [getPath] at hp; subst hp; simp [nonEmptyScalar] at hs
      | cons s rest => cases s <;> simp [getPath] at hp
  | str s =>
      simp [isNullOrEmptyStr] at h
      cases p with
      | nil => simp [getPath] at hp; subst hp; simp [h, nonEmptyScalar] at hs
      | cons s rest => cases s <;> simp [getPath] at hp
  | bool b => simp [isNullOrEmptyStr] at h
  | num q => simp [isNullOrEmptyStr] at h
  | arr l => simp [isNullOrEmptyStr] at h
  | obj l => simp [isNullOrEmptyStr] at h

theorem preserves_arr_nil (b : Json) : Preserves (Json.arr []) b := by
  intro p v hp hs
  cases p with
  | nil => simp [getPath] at hp; subst hp; simp [nonEmptyScalar] at hs
  | cons s rest =>
      cases s with
      | idx n => simp [getPath] at hp
      | fld k => simp [getPath] at hp

theorem preserves_arr_append (next : List Json) (x : Json) :
    Preserves (Json.arr next) (Json.arr (next ++ [x])) := by
  intro p v hp hs
  cases p with
  | nil => simp [getPath] at hp; subst hp; simp [nonEmptyScalar] at hs
  | cons s rest =>
      cases s with
      | idx n =>
          simp only [getPath] at hp ⊢
          cases hn : next.get? n with
          | none => rw [hn] at hp; simp at hp
          | some x0 =>
              rw [hn] at hp
              rw [List.get?_append (List.get?_eq_some.mp hn).1, hn]
              exact hp
      | fld k => simp [getPath] at hp

theorem preserves_arr_set {next : List Json} {j : Nat} {v' : Json}
    (h : Preserves (next.getD j Json.null) v') :
    Preserves (Json.arr next) (Json.arr (next.set j v')) := by
  intro p v hp hs
  cases p with
  | nil =>
      simp [getPath] at hp; subst hp; simp [nonEmptyScalar] at hs
  | cons s rest =>
      cases s with
      | idx n =>
          simp only [getPath] at hp ⊢
          cases hn : next.get? n with
          | none => rw [hn] at hp; simp at hp
          | some x0 =>
              rw [hn] at hp
              by_cases hj : j = n
              · subst hj
                have hlt : j < next.length := (List.get?_eq_some.mp hn).1
                rw [List.get?_set_eq_of_lt v' hlt]
                have hx0 : next.getD j Json.null = x0 := by
                  rw [List.get?_eq_getElem?] at hn
                  simp [List.getD, hn]
                exact h rest v (by rw [← hx0] at hp; exact hp) hs
              · rw [List.get?_set_ne v' next hj, hn]
                exact hp
      | fld k => simp [getPath] at hp

theorem alookup_append_some {α : Type} {fields : List (String × α)} {k : String} {v : α}
    (tail : List (String × α)) (h : alookup fields k = some v) :
    alookup (fields ++ tail) k = some v := by
  induction fields with
  | nil => simp [alookup] at h
  | cons kv rest ih =>
      obtain ⟨k', v'⟩ := kv
      by_cases hk : k' = k
      · subst hk; simp [alookup] at h ⊢; exact h
      · simp [alookup, hk] at h ⊢; exact ih h

theorem alookup_replaceField_preserved {α : Type} {next : List (String × α)} {k k' : String}
    {v : α} (newV : α) (h : alookup next k' = some v) (hne : k' ≠ k) :
    alookup (replaceField next k newV) k' = some v := by
  induction next with
  | nil => simp [alookup] at h
  | cons kv rest ih =>
      obtain ⟨k0, v0⟩ := kv
      by_cases hk0 : k0 = k
      · subst hk0
        simp [alookup, Ne.symm hne] at h
        simp [replaceField, alookup, Ne.symm hne]
        exact h
      · simp [replaceField, hk0]
        by_cases hk0' : k0 = k'
        · subst hk0'; simp [alookup] at h ⊢; exact h
        · simp [alookup, hk0'] at h ⊢; exact ih h

theorem alookup_replaceField_self {α : Type} {next : List (String × α)} {k : String} {cv : α}
    (newV : α) (h : alookup next k = some cv) :
    alookup (replaceField next k newV) k = some newV := by
  induction next with
  | nil => simp [alookup] at h
  | cons kv rest ih =>
      obtain ⟨k0, v0⟩ := kv
      by_cases hk0 : k0 = k
      · subst hk0; simp [replaceField, alookup]
      · simp [alookup, hk0] at h
        simp [replaceField, hk0, alookup]
        exact ih h

theorem preserves_obj_append (next : List (String × Json)) (kv : String × Json) :
    Preserves (Json.obj next) (Json.obj (next ++ [kv])) := by
  intro p v hp hs
  cases p with
  | nil => simp [getPath] at hp; subst hp; simp [nonEmptyScalar] at hs
  | cons s rest =>
      cases s with
      | idx n => simp [getPath] at hp
      | fld k =>
          simp only [getPath] at hp ⊢
          cases hk : alookup next k with
          | none => rw [hk] at hp; simp at hp
          | some w =>
              rw [hk] at hp
              rw [alookup_append_some [kv] hk]
              exact hp

theorem preserves_obj_replace {next : List (String × Json)} {k : String} {cv v' : Json}
    (h : alookup next k = some cv) (hpres : Preserves cv v') :
    Preserves (Json.obj next) (Json.obj (replaceField next k v')) := by
  intro p v hp hs
  cases p with
  | nil => simp [getPath] at hp; subst hp; simp [nonEmptyScalar] at hs
  | cons s rest =>
      cases s with
      | idx n => simp [getPath] at hp
      | fld k' =>
          simp only [getPath] at hp ⊢
          cases hk : alookup next k' with
          | none => rw [hk] at hp; simp at hp
          | some w =>
              rw [hk] at hp
              by_cases hkk : k' = k
              · subst hkk
                rw [alookup_replaceField_self v' h]
                have : w = cv := by rw [h] at hk; exact (Option.some.inj hk).symm
                subst this
                exact hpres rest v hp hs
              · rw [alookup_replaceField_preserved v' hk hkk]
                exact hp

theorem arrLoop_preserves (key : String) (orig : List Json) :
    ∀ (items : List Json),
      (∀ item ∈ items, ∀ c' : Json, Preserves c' (mergeFill c' item).value) →
      ∀ (next : List Json) (ch : Bool),
      Preserves (Json.arr next) (Json.arr (mergeFillArrayLoop key orig next ch items).1) := by
  intro items
  induction items with
  | nil =>
      intro _ next ch
      rw [arrLoop_nil]
      exact preserves_refl _
  | cons item rest ih =>
      intro ihm next ch
      cases hgf : getStrField item key with
      | none =>
          rw [arrLoop_cons_skip orig next ch rest hgf]
          exact ih (fun x hx => ihm x (List.mem_cons_of_mem _ hx)) next ch
      | some id =>
          cases hidx : indexByIdGet key orig id with
          | none =>
              rw [arrLoop_cons_append orig next ch rest hgf hidx]
              exact preserves_trans (preserves_arr_append next item)
                (ih (fun x hx => ihm x (List.mem_cons_of_mem _ hx)) (next ++ [item]) true)
          | some j =>
              rw [arrLoop_cons_found orig next ch rest hgf hidx]
              by_cases hch : (mergeFill (next.getD j Json.null) item).changed = true
              · rw [if_pos hch]
                have h1 : Preserves (next.getD j Json.null)
                    (mergeFill (next.getD j Json.null) item).value :=
                  ihm item (List.mem_cons_self _ _) _
                exact preserves_trans (preserves_arr_set h1)
                  (ih (fun x hx => ihm x (List.mem_cons_of_mem _ hx)) _ true)
              · rw [if_neg hch]
                exact ih (fun x hx => ihm x (List.mem_cons_of_mem _ hx)) next ch

theorem objLoop_preserves :
    ∀ (fields : List (String × Json)),
      (∀ kv ∈ fields, ∀ c' : Json, Preserves c' (mergeFill c' kv.2).value) →
      ∀ (next : List (String × Json)) (ch : Bool),
      Preserves (Json.obj next) (Json.obj (mergeFillObjectLoop next ch fields).1) := by
  intro fields
  induction fields with
  | nil =>
      intro _ next ch
      rw [objLoop_nil]
      exact preserves_refl _
  | cons kv rest ih =>
      obtain ⟨k, iv⟩ := kv
      intro ihm next ch
      cases hk : alookup next k with
      | none =>
          rw [objLoop_cons_absent next ch rest hk]
          exact preserves_trans (preserves_obj_append next (k, iv))
            (ih (fun x hx => ihm x (List.mem_cons_of_mem _ hx)) (next ++ [(k, iv)]) true)
      | some cv =>
          rw [objLoop_cons_present next ch rest hk]
          by_cases hch : (mergeFill cv iv).changed = true
          · rw [if_pos hch]
            have h1 : Preserves cv (mergeFill cv iv).value :=
              ihm (k, iv) (List.mem_cons_self _ _) cv
            exact preserves_trans (preserves_obj_replace hk h1)
              (ih (fun x hx => ihm x (List.mem_cons_of_mem _ hx)) _ true)
          · rw [if_neg hch]
            exact ih (fun x hx => ihm x (List.mem_cons_of_mem _ hx)) next ch

theorem mergeFill_preserves_aux :
    ∀ n : Nat, ∀ i c : Json, sizeOf i ≤ n → Preserves c (mergeFill c i).value := by
  intro n
  induction n with
  | zero =>
      intro i c h
      have := json_sizeOf_pos i
      omega
  | succ n ihn =>
      intro i c hsz
      by_cases hc : isNullOrEmptyStr c = true
      · rw [mergeFill_nullish i hc]
        exact preserves_of_nullish hc i
      · cases c with
        | arr cs =>
            cases i with
            | arr is =>
                have hitems : ∀ item ∈ is, ∀ c' : Json, Preserves c' (mergeFill c' item).value := by
                  intro item hmem c'
                  have h1 : sizeOf item < sizeOf is := List.sizeOf_lt_of_mem hmem
                  have h2 : sizeOf (Json.arr is) = 1 + sizeOf is := by simp
                  exact ihn item c' (by omega)
                rw [mergeFill_arr_arr]
                by_cases hemp : (cs.isEmpty && !is.isEmpty) = true
                · rw [if_pos hemp]
                  have : cs = [] := by
                    cases cs with
                    | nil => rfl
                    | cons a l => simp [List.isEmpty] at hemp
                  subst this
                  exact preserves_arr_nil _
                · rw [if_neg hemp]
                  cases hdet : (detectIdKey cs).orElse (fun _ => detectIdKey is) with
                  | none => exact preserves_refl _
                  | some key => exact arrLoop_preserves key cs is hitems cs false
            | null =>
                rw [show mergeFill (Json.arr cs) Json.null = ⟨Json.arr cs, false⟩ from by
                  rw [mergeFill] <;> simp [isNullOrEmptyStr]]
                exact preserves_refl _
            | bool b =>
                rw [show mergeFill (Json.arr cs) (Json.bool b) = ⟨Json.arr cs, false⟩ from by
                  rw [mergeFill] <;> simp [isNullOrEmptyStr]]
                exact preserves_refl _
            | num q =>
                rw [show mergeFill (Json.arr cs) (Json.num q) = ⟨Json.arr cs, false⟩ from by
                  rw [mergeFill] <;> simp [isNullOrEmptyStr]]
                exact preserves_refl _
            | str s =>
                rw [show mergeFill (Json.arr cs) (Json.str s) = ⟨Json.arr cs, false⟩ from by
                  rw [mergeFill] <;> simp [isNullOrEmptyStr]]
                exact preserves_refl _
            | obj fs =>
                rw [show mergeFill (Json.arr cs) (Json.obj fs) = ⟨Json.arr cs, false⟩ from by
                  rw [mergeFill] <;> simp [isNullOrEmptyStr]]
                exact preserves_refl _
        | obj cf =>
            cases i with
            | obj inc =>
                have hfields : ∀ kv ∈ inc, ∀ c' : Json, Preserves c' (mergeFill c' kv.2).value := by
                  intro kv hmem c'
                  have h1 : sizeOf kv < sizeOf inc := List.sizeOf_lt_of_mem hmem
                  have h2 : sizeOf (Json.obj inc) = 1 + sizeOf inc := by simp
                  have h3 : sizeOf kv.2 < sizeOf kv := by
                    obtain ⟨a, b⟩ := kv
                    simp
                  exact ihn kv.2 c' (by omega)
                rw [mergeFill_obj_obj]
                exact objLoop_preserves inc hfields cf false
            | null =>
                rw [show mergeFill (Json.obj cf) Json.null = ⟨Json.obj cf, false⟩ from by
                  rw [mergeFill] <;> simp [isNullOrEmptyStr]]
                exact preserves_refl _
            | bool b =>
                rw [show mergeFill (Json.obj cf) (Json.bool b) = ⟨Json.obj cf, false⟩ from by
                  rw [mergeFill] <;> simp [isNullOrEmptyStr]]
                exact preserves_refl _
            | num q =>
                rw [show mergeFill (Json.obj cf) (Json.num q) = ⟨Json.obj cf, false⟩ from by
                  rw [mergeFill] <;> simp [isNullOrEmptyStr]]
                exact preserves_refl _
            | str s =>
                rw [show mergeFill (Json.obj cf) (Json.str s) = ⟨Json.obj cf, false⟩ from by
                  rw [mergeFill] <;> simp [isNullOrEmptyStr]]
                exact preserves_refl _
            | arr l =>
                rw [show mergeFill (Json.obj cf) (Json.arr l) = ⟨Json.obj cf, false⟩ from by
                  rw [mergeFill] <;> simp [isNullOrEmptyStr]]
                exact preserves_refl _
        | null => simp [isNullOrEmptyStr] at hc
        | bool b =>
            have hb : mergeFill (Json.bool b) i = ⟨Json.bool b, false⟩ := by
              cases i <;> (rw [mergeFill] <;> simp [isNullOrEmptyStr])
            rw [hb]
            exact preserves_refl _
        | num q =>
            have hq : mergeFill (Json.num q) i = ⟨Json.num q, false⟩ := by
              cases i <;> (rw [mergeFill] <;> simp [isNullOrEmptyStr])
            rw [hq]
            exact preserves_refl _
        | str s =>
            have hs : s ≠ "" := by
              intro hemp
              subst hemp
              simp [isNullOrEmptyStr] at hc
            have hstr : mergeFill (Json.str s) i = ⟨Json.str s, false⟩ := by
              cases i <;> (rw [mergeFill] <;> simp [isNullOrEmptyStr, hs])
            rw [hstr]
            exact preserves_refl _

theorem mergeFill_preserves (c i : Json) : Preserves c (mergeFill c i).value :=
  mergeFill_preserves_aux (sizeOf i) i c (le_refl _)

theorem mergeFill_base_of (c i : Json) (hc : isNullOrEmptyStr c = false)
    (hab : ∀ cs is, c = Json.arr cs → i = Json.arr is → False)
    (hob : ∀ cf inc, c = Json.obj cf → i = Json.obj inc → False) :
    mergeFill c i = ⟨c, false⟩ := by
  cases c <;> cases i <;>
    first
      | (simp [isNullOrEmptyStr] at hc; done)
      | exact (hab _ _ rfl rfl).elim
      | exact (hob _ _ rfl rfl).elim
      | (rw [mergeFill] <;> simp [isNullOrEmptyStr]; done)
      | (rw [mergeFill] <;> simp_all [isNullOrEmptyStr])

theorem arrLoop_true_mono (key : String) (orig : List Json) :
    ∀ (items next : List Json), (mergeFillArrayLoop key orig next true items).2 = true := by
  intro items
  induction items with
  | nil => intro next; rw [arrLoop_nil]
  | cons item rest ih =>
      intro next
      cases hgf : getStrField item key with
      | none => rw [arrLoop_cons_skip orig next true rest hgf]; exact ih next
      | some id =>
          cases hidx : indexByIdGet key orig id with
          | none => rw [arrLoop_cons_append orig next true rest hgf hidx]; exact ih _
          | some j =>
              rw [arrLoop_cons_found orig next true rest hgf hidx]
              by_cases hch : (mergeFill (next.getD j Json.null) item).changed = true
              · rw [if_pos hch]; exact ih _
              · rw [if_neg hch]; exact ih next

theorem arrLoop_false_fixed (key : String) (orig : List Json) :
    ∀ (items next : List Json) (ch : Bool),
      (mergeFillArrayLoop key orig next ch items).2 = false →
      (mergeFillArrayLoop key orig next ch items).1 = next := by
  intro items
  induction items with
  | nil => intro next ch _; rw [arrLoop_nil]
  | cons item rest ih =>
      intro next ch h
      cases hgf : getStrField item key with
      | none =>
          rw [arrLoop_cons_skip orig next ch rest hgf] at h ⊢
          exact ih next ch h
      | some id =>
          cases hidx : indexByIdGet key orig id with
          | none =>
              rw [arrLoop_cons_append orig next ch rest hgf hidx] at h
              rw [arrLoop_true_mono key orig rest (next ++ [item])] at h
              simp at h
          | some j =>
              rw [arrLoop_cons_found orig next ch rest hgf hidx] at h ⊢
              by_cases hch : (mergeFill (next.getD j Json.null) item).changed = true
              · rw [if_pos hch] at h
                rw [arrLoop_true_mono key orig rest _] at h
                simp at h
              · rw [if_neg hch] at h ⊢
                exact ih next ch h

theorem objLoop_true_mono :
    ∀ (fields next : List (String × Json)), (mergeFillObjectLoop next true fields).2 = true := by
  intro fields
  induction fields with
  | nil => intro next; rw [objLoop_nil]
  | cons kv rest ih =>
      obtain ⟨k, iv⟩ := kv
      intro next
      cases hk : alookup next k with
      | none => rw [objLoop_cons_absent next true rest hk]; exact ih _
      | some cv =>
          rw [objLoop_cons_present next true rest hk]
          by_cases hch : (mergeFill cv iv).changed = true
          · rw [if_pos hch]; exact ih _
          · rw [if_neg hch]; exact ih next

theorem objLoop_false_fixed :
    ∀ (fields next : List (String × Json)) (ch : Bool),
      (mergeFillObjectLoop next ch fields).2 = false →
      (mergeFillObjectLoop next ch fields).1 = next := by
  intro fields
  induction fields with
  | nil => intro next ch _; rw [objLoop_nil]
  | cons kv rest ih =>
      obtain ⟨k, iv⟩ := kv
      intro next ch h
      cases hk : alookup next k with
      | none =>
          rw [objLoop_cons_absent next ch rest hk] at h
          rw [objLoop_true_mono rest _] at h
          simp at h
      | some cv =>
          rw [objLoop_cons_present next ch rest hk] at h ⊢
          by_cases hch : (mergeFill cv iv).changed = true
          · rw [if_pos hch] at h
            rw [objLoop_true_mono rest _] at h
            simp at h
          · rw [if_neg hch] at h ⊢
            exact ih next ch h

theorem mergeFill_changed_false (c i : Json) (h : (mergeFill c i).changed = false) :
    (mergeFill c i).value = c := by
  by_cases hc : isNullOrEmptyStr c = true
  · rw [mergeFill_nullish i hc] at h
    simp at h
  · replace hc : isNullOrEmptyStr c = false := by
      cases hx : isNullOrEmptyStr c with
      | true => exact absurd hx hc
      | false => rfl
    cases c with
    | arr cs =>
        cases i with
        | arr is =>
            rw [mergeFill_arr_arr] at h ⊢
            by_cases hemp : (cs.isEmpty && !is.isEmpty) = true
            · rw [if_pos hemp] at h
              simp at h
            · rw [if_neg hemp] at h ⊢
              cases hdet : (detectIdKey cs).orElse (fun _ => detectIdKey is) with
              | none => rfl
              | some key =>
                  rw [hdet] at h
                  exact congrArg Json.arr (arrLoop_false_fixed key cs is cs false h)
        | null =>
            rw [mergeFill_base_of _ _ hc (by simp) (by simp)]
        | bool b => rw [mergeFill_base_of _ _ hc (by simp) (by simp)]
        | num q => rw [mergeFill_base_of _ _ hc (by simp) (by simp)]
        | str s => rw [mergeFill_base_of _ _ hc (by simp) (by simp)]
        | obj fs => rw [mergeFill_base_of _ _ hc (by simp) (by simp)]
    | obj cf =>
        cases i with
        | obj inc =>
            rw [mergeFill_obj_obj] at h ⊢
            exact congrArg Json.obj (objLoop_false_fixed inc cf false h)
        | null => rw [mergeFill_base_of _ _ hc (by simp) (by simp)]
        | bool b => rw [mergeFill_base_of _ _ hc (by simp) (by simp)]
        | num q => rw [mergeFill_base_of _ _ hc (by simp) (by simp)]
        | str s => rw [mergeFill_base_of _ _ hc (by simp) (by simp)]
        | arr l => rw [mergeFill_base_of _ _ hc (by simp) (by simp)]
    | null => simp [isNullOrEmptyStr] at hc
    | bool b => rw [mergeFill_base_of _ _ hc (by simp) (by simp)]
    | num q => rw [mergeFill_base_of _ _ hc (by simp) (by simp)]
    | str s => rw [mergeFill_base_of _ _ hc (by simp) (by simp)]

theorem storageLookup_upsert_ne (st : List StorageRow) (i m s' k' : String) (d : Json)
    (s k : String) (h : ¬(s' = s ∧ k' = k)) :
    storageLookup (upsertRow st i m s' k' d) i m s k = storageLookup st i m s k := by
  have hnew : storagePkMatches ⟨i, m, s', k', d⟩ i m s k = false := by
    simp only [storagePkMatches]
    simp only [beq_self_eq_true, Bool.true_and]
    rw [Bool.and_eq_false_iff]
    by_cases hs : s' = s
    · right
      rw [beq_eq_false_iff_ne]
      intro hk
      exact h ⟨hs, hk⟩
    · left
      rw [beq_eq_false_iff_ne]
      exact hs
  induction st with
  | nil =>
      simp [upsertRow, storageLookup, List.find?, hnew]
  | cons r rest ih =>
      by_cases hr : storagePkMatches r i m s' k' = true
      · have hparts := hr
        simp only [storagePkMatches, Bool.and_eq_true, beq_iff_eq] at hparts
        obtain ⟨⟨⟨hri, hrm⟩, hrs⟩, hrk⟩ := hparts
        have hne : storagePkMatches r i m s k = false := by
          simp only [storagePkMatches, hri, hrm, hrs, hrk]
          simp only [beq_self_eq_true, Bool.true_and]
          rw [Bool.and_eq_false_iff]
          by_cases hs : s' = s
          · right
            rw [beq_eq_false_iff_ne]
            intro hk
            exact h ⟨hs, hk⟩
          · left
            rw [beq_eq_false_iff_ne]
            exact hs
        simp only [upsertRow, hr, if_true, storageLookup, List.find?, hne, hnew]
      · have hrf : storagePkMatches r i m s' k' = false := by
          cases hx : storagePkMatches r i m s' k' with
          | true => exact absurd hx hr
          | false => rfl
        simp only [upsertRow, hrf, Bool.false_eq_true, if_false, storageLookup, List.find?]
        cases hx : storagePkMatches r i m s k with
        | true => simp
        | false => simpa [storageLookup] using ih

theorem fillLoop_lookup_invariant (i m : String) (dryRun : Bool) (existing : List StorageRow)
    (s k : String) :
    ∀ (incoming : List StoredRow) (st : FillState),
      (∀ w ∈ incoming, rowMapKey w.sectionName w.record_key = rowMapKey s k →
        ∃ ex, existingMapGet existing (rowMapKey w.sectionName w.record_key) = some ex ∧
          (mergeFill ex.data w.data).changed = false) →
      storageLookup (incoming.foldl (executeFillStep i m dryRun existing) st).storage i m s k
        = storageLookup st.storage i m s k := by
  intro incoming
  induction incoming with
  | nil => intro st _; rfl
  | cons w rest ih =>
      intro st hkeys
      have hrest : ∀ w' ∈ rest, rowMapKey w'.sectionName w'.record_key = rowMapKey s k →
          ∃ ex, existingMapGet existing (rowMapKey w'.sectionName w'.record_key) = some ex ∧
            (mergeFill ex.data w'.data).changed = false :=
        fun w' hw' => hkeys w' (List.mem_cons_of_mem _ hw')
      rw [List.foldl_cons, ih _ hrest]
      have hpairne : rowMapKey w.sectionName w.record_key ≠ rowMapKey s k →
          ¬(w.sectionName = s ∧ w.record_key = k) := by
        intro hne ⟨hs, hk⟩
        exact hne (by rw [rowMapKey, rowMapKey, hs, hk])
      cases hmap : existingMapGet existing (rowMapKey w.sectionName w.record_key) with
      | none =>
          by_cases hmk : rowMapKey w.sectionName w.record_key = rowMapKey s k
          · obtain ⟨ex, hex, _⟩ := hkeys w (List.mem_cons_self _ _) hmk
            rw [hmap] at hex
            exact absurd hex (by simp)
          · simp only [executeFillStep, hmap]
            cases dryRun with
            | true => rfl
            | false =>
                exact storageLookup_upsert_ne st.storage i m _ _ _ s k (hpairne hmk)
      | some ex =>
          by_cases hch : (mergeFill ex.data w.data).changed = true
          · by_cases hmk : rowMapKey w.sectionName w.record_key = rowMapKey s k
            · obtain ⟨ex', hex', hch'⟩ := hkeys w (List.mem_cons_self _ _) hmk
              rw [hmap] at hex'
              have : ex' = ex := by
                exact (Option.some.inj hex').symm
              rw [this] at hch'
              rw [hch] at hch'
              simp at hch'
            · simp only [executeFillStep, hmap, hch, if_true]
              cases dryRun with
              | true => rfl
              | false =>
                  exact storageLookup_upsert_ne st.storage i m _ _ _ s k (hpairne hmk)
          · have hchf : (mergeFill ex.data w.data).changed = false := by
              cases hx : (mergeFill ex.data w.data).changed with
              | true => exact absurd hx hch
              | false => rfl
            simp only [executeFillStep, hmap, hchf, Bool.false_eq_true, if_false]

/-- Claim C1: fill-merge monotonicity.  For every stored document `D` and
incoming document `I`, `mergeFill(D, I)` agrees with `D` on every leaf path
of `D` holding a non-empty scalar (not `null`, not `undefined`, not `""`):
no such scalar is overwritten or removed. -/
theorem fill_merge_monotonicity (D I : Json) (p : List PathStep) (v : Json)
    (hleaf : getPath D p = some v) (hscalar : nonEmptyScalar v = true) :
    getPath (mergeFill D I).value p = some v :=
  mergeFill_preserves D I p v hleaf hscalar

/-- Witness for C1 at a concrete input: the stored scalar `"x"` at path `a`
survives a merge with an incoming document that tries to change it. -/
theorem fill_merge_monotonicity_witness :
    getPath (mergeFill (Json.obj [("a", Json.str "x")]) (Json.obj [("a", Json.str "y")])).value
      [PathStep.fld "a"] = some (Json.str "x") :=
  fill_merge_monotonicity (Json.obj [("a", Json.str "x")]) (Json.obj [("a", Json.str "y")])
    [PathStep.fld "a"] (Json.str "x") rfl rfl

/-- Claim C10: the `changed` flag is sound — `changed = false` implies the
returned value is structurally the current document, and every row
`executeFill` counts as skipped keeps its stored data untouched. -/
theorem fill_changed_flag_sound :
    (∀ c i : Json, (mergeFill c i).changed = false → (mergeFill c i).value = c) ∧
    (∀ (db : Db) (i m : String) (incoming : List StoredRow) (dryRun : Bool) (r : StoredRow)
      (ex : StorageRow),
      (incoming.map fun w => rowMapKey w.sectionName w.record_key).Nodup →
      r ∈ incoming →
      existingMapGet (getExistingRows db.storage i m) (rowMapKey r.sectionName r.record_key)
        = some ex →
      (mergeFill ex.data r.data).changed = false →
      storageLookup (executeFill db i m incoming dryRun).1.storage i m r.sectionName r.record_key
        = storageLookup db.storage i m r.sectionName r.record_key) := by
  constructor
  · exact mergeFill_changed_false
  · intro db i m incoming dryRun r ex hnodup hr hex hch
    have hkeys : ∀ w ∈ incoming, rowMapKey w.sectionName w.record_key
        = rowMapKey r.sectionName r.record_key →
        ∃ ex', existingMapGet (getExistingRows db.storage i m)
            (rowMapKey w.sectionName w.record_key) = some ex' ∧
          (mergeFill ex'.data w.data).changed = false := by
      intro w hw hwk
      have : w = r := List.inj_on_of_nodup_map hnodup hw hr hwk
      subst this
      exact ⟨ex, hex, hch⟩
    exact fillLoop_lookup_invariant i m dryRun (getExistingRows db.storage i m)
      r.sectionName r.record_key incoming ⟨db.storage, 0, 0, 0⟩ hkeys

/-- Witness for C10 at a concrete input: one stored row, one incoming row
whose merge reports no change, and the stored data is untouched. -/
theorem fill_changed_flag_sound_witness :
    storageLookup
      (executeFill
        ⟨[⟨"i", "m", "market", "market", Json.obj [("a", Json.str "x")]⟩], [], []⟩
        "i" "m" [⟨"market", "market", Json.obj [("a", Json.str "x")]⟩] false).1.storage
      "i" "m" "market" "market"
      = storageLookup [⟨"i", "m", "market", "market", Json.obj [("a", Json.str "x")]⟩]
          "i" "m" "market" "market" := by
  refine fill_changed_flag_sound.2
    ⟨[⟨"i", "m", "market", "market", Json.obj [("a", Json.str "x")]⟩], [], []⟩
    "i" "m" [⟨"market", "market", Json.obj [("a", Json.str "x")]⟩] false
    ⟨"market", "market", Json.obj [("a", Json.str "x")]⟩
    ⟨"i", "m", "market", "market", Json.obj [("a", Json.str "x")]⟩
    (by simp) (by simp) (by simp [existingMapGet, getExistingRows, rowMapKey]) ?_
  simp [mergeFill, isNullOrEmptyStr, mergeFillObjectLoop, alookup]

theorem alookup_append_ne {α : Type} {l : List (String × α)} {k k' : String} (v : α)
    (h : k ≠ k') : alookup (l ++ [(k', v)]) k = alookup l k := by
  induction l with
  | nil => simp [alookup, Ne.symm h]
  | cons kv rest ih =>
      obtain ⟨k0, v0⟩ := kv
      by_cases hk : k0 = k
      · simp [alookup, hk]
      · simp [alookup, hk]
        exact ih

theorem alookup_append_self {α : Type} {l : List (String × α)} {k : String} (v : α)
    (h : alookup l k = none) : alookup (l ++ [(k, v)]) k = some v := by
  induction l with
  | nil => simp [alookup]
  | cons kv rest ih =>
      obtain ⟨k0, v0⟩ := kv
      by_cases hk : k0 = k
      · simp [alookup, hk] at h
      · simp [alookup, hk] at h ⊢
        exact ih h

theorem alookup_replaceField_ne {α : Type} {l : List (String × α)} {k k' : String} (v : α)
    (h : k ≠ k') : alookup (replaceField l k' v) k = alookup l k := by
  induction l with
  | nil => simp [replaceField, alookup]
  | cons kv rest ih =>
      obtain ⟨k0, v0⟩ := kv
      by_cases hk0 : k0 = k'
      · subst hk0
        simp [replaceField, alookup, Ne.symm h]
      · simp [replaceField, hk0, alookup]
        by_cases hk : k0 = k
        · simp [hk]
        · simp [hk]
          exact ih

theorem replaceField_self_eq {α : Type} {l : List (String × α)} {k : String} {v : α}
    (h : alookup l k = some v) : replaceField l k v = l := by
  induction l with
  | nil => simp [replaceField]
  | cons kv rest ih =>
      obtain ⟨k0, v0⟩ := kv
      by_cases hk : k0 = k
      · subst hk
        simp [alookup] at h
        simp [replaceField, h]
      · simp [alookup, hk] at h
        simp [replaceField, hk]
        exact ih h

theorem alookup_of_mem_nodup {α : Type} {l : List (String × α)} {k : String} {v : α}
    (hmem : (k, v) ∈ l) (hnd : (l.map Prod.fst).Nodup) : alookup l k = some v := by
  induction l with
  | nil => simp at hmem
  | cons kv rest ih =>
      obtain ⟨k0, v0⟩ := kv
      simp at hnd
      rcases List.mem_cons.mp hmem with heq | htail
      · injection heq with h1 h2
        subst h1
        subst h2
        simp [alookup]
      · have hk : k0 ≠ k := by
          intro hk
          subst hk
          exact hnd.1 v htail
        simp [alookup, hk]
        exact ih htail hnd.2

theorem objLoop_alookup_of_not_mem {fields : List (String × Json)} {k : String}
    (hk : k ∉ fields.map Prod.fst) (next : List (String × Json)) (ch : Bool) :
    alookup (mergeFillObjectLoop next ch fields).1 k = alookup next k := by
  induction fields generalizing next ch with
  | nil => rw [objLoop_nil]
  | cons kv rest ih =>
      obtain ⟨k0, iv0⟩ := kv
      have hk0 : k ≠ k0 := by
        intro h
        exact hk (by simp [h])
      have hkrest : k ∉ rest.map Prod.fst := by
        intro h
        exact hk (by simp [h])
      cases hl : alookup next k0 with
      | none =>
          rw [objLoop_cons_absent next ch rest hl]
          rw [ih hkrest]
          exact alookup_append_ne iv0 hk0
      | some cv =>
          rw [objLoop_cons_present next ch rest hl]
          by_cases hch : (mergeFill cv iv0).changed = true
          · rw [if_pos hch, ih hkrest]
            exact alookup_replaceField_ne _ hk0
          · rw [if_neg hch, ih hkrest]

theorem objLoop_alookup_of_mem {fields : List (String × Json)} {k : String} {iv : Json}
    (hmem : (k, iv) ∈ fields) (hnd : (fields.map Prod.fst).Nodup)
    (next : List (String × Json)) (ch : Bool) :
    alookup (mergeFillObjectLoop next ch fields).1 k =
      some (match alookup next k with
            | some cv => (mergeFill cv iv).value
            | none => iv) := by
  induction fields generalizing next ch with
  | nil => simp at hmem
  | cons kv rest ih =>
      obtain ⟨k0, iv0⟩ := kv
      simp at hnd
      rcases List.mem_cons.mp hmem with heq | htail
      · injection heq with h1 h2
        subst h1
        subst h2
        have hnotin : k ∉ rest.map Prod.fst := by
          intro hin
          obtain ⟨⟨k', v'⟩, hv', hkeq⟩ := List.mem_map.mp hin
          simp only at hkeq
          subst hkeq
          exact hnd.1 v' hv'
        cases hl : alookup next k with
        | none =>
            rw [objLoop_cons_absent next ch rest hl]
            rw [objLoop_alookup_of_not_mem hnotin]
            exact alookup_append_self iv hl
        | some cv =>
            rw [objLoop_cons_present next ch rest hl]
            by_cases hch : (mergeFill cv iv).changed = true
            · rw [if_pos hch]
              rw [objLoop_alookup_of_not_mem hnotin]
              exact alookup_replaceField_self _ hl
            · rw [if_neg hch]
              rw [objLoop_alookup_of_not_mem hnotin, hl]
              have hveq : (mergeFill cv iv).value = cv := by
                apply mergeFill_changed_false
                cases hx : (mergeFill cv iv).changed with
                | true => exact absurd hx hch
                | false => rfl
              exact congrArg some hveq.symm
      · have hkne : k ≠ k0 := by
          intro hk
          subst hk
          exact hnd.1 iv htail
        cases hl : alookup next k0 with
        | none =>
            rw [objLoop_cons_absent next ch rest hl]
            rw [ih htail hnd.2]
            rw [alookup_append_ne iv0 hkne]
        | some cv =>
            rw [objLoop_cons_present next ch rest hl]
            by_cases hch : (mergeFill cv iv0).changed = true
            · rw [if_pos hch]
              rw [ih htail hnd.2]
              rw [alookup_replaceField_ne _ hkne]
            · rw [if_neg hch]
              exact ih htail hnd.2 next ch

theorem objLoop_fixed_point {fields next : List (String × Json)} (ch : Bool)
    (hfix : ∀ kv ∈ fields, ∃ cv, alookup next kv.1 = some cv ∧ (mergeFill cv kv.2).value = cv) :
    (mergeFillObjectLoop next ch fields).1 = next := by
  induction fields generalizing ch with
  | nil => rw [objLoop_nil]
  | cons kv rest ih =>
      obtain ⟨k, iv⟩ := kv
      obtain ⟨cv, hl, hv⟩ := hfix (k, iv) (List.mem_cons_self _ _)
      rw [objLoop_cons_present next ch rest hl]
      have hrest : ∀ kv ∈ rest, ∃ cv, alookup next kv.1 = some cv ∧
          (mergeFill cv kv.2).value = cv :=
        fun kv hkv => hfix kv (List.mem_cons_of_mem _ hkv)
      by_cases hch : (mergeFill cv iv).changed = true
      · rw [if_pos hch]
        have hrepl : replaceField next k (mergeFill cv iv).value = next := by
          rw [hv]
          exact replaceField_self_eq hl
        rw [hrepl]
        exact ih true hrest
      · rw [if_neg hch]
        exact ih ch hrest

theorem bool_eq_false {b : Bool} (h : ¬b = true) : b = false := by
  cases b
  · rfl
  · exact absurd rfl h

theorem mergeFill_value_self_scalar (I : Json)
    (ha : ∀ items, I ≠ Json.arr items) (ho : ∀ fs, I ≠ Json.obj fs) :
    (mergeFill I I).value = I := by
  by_cases hI : isNullOrEmptyStr I = true
  · rw [mergeFill_nullish _ hI]
  · rw [mergeFill_base_of I I (bool_eq_false hI)
      (fun cs _ hc _ => (ha cs hc).elim) (fun cf _ hc _ => (ho cf hc).elim)]

theorem mergeFill_idem_of_scalar (I : Json)
    (ha : ∀ items, I ≠ Json.arr items) (ho : ∀ fs, I ≠ Json.obj fs) (D : Json) :
    (mergeFill (mergeFill D I).value I).value = (mergeFill D I).value := by
  by_cases hD : isNullOrEmptyStr D = true
  · have hM : (mergeFill D I).value = I := by rw [mergeFill_nullish I hD]
    rw [hM]
    exact mergeFill_value_self_scalar I ha ho
  · have hM : (mergeFill D I).value = D := by
      rw [mergeFill_base_of D I (bool_eq_false hD)
        (fun _ is _ hi => (ha is hi).elim) (fun _ inc _ hi => (ho inc hi).elim)]
    rw [hM]
    exact hM

theorem mergeFill_selfIdem_aux :
    ∀ n : Nat, ∀ I : Json, sizeOf I ≤ n → ArrayFreeDoc I →
      ((mergeFill I I).value = I) ∧
      (∀ D : Json, (mergeFill (mergeFill D I).value I).value = (mergeFill D I).value) := by
  intro n
  induction n with
  | zero =>
      intro I h _
      have := json_sizeOf_pos I
      omega
  | succ n ihn =>
      intro I hsz haf
      cases haf with
      | null =>
          exact ⟨mergeFill_value_self_scalar _ (by simp) (by simp),
            mergeFill_idem_of_scalar _ (by simp) (by simp)⟩
      | bool b =>
          exact ⟨mergeFill_value_self_scalar _ (by simp) (by simp),
            mergeFill_idem_of_scalar _ (by simp) (by simp)⟩
      | num q =>
          exact ⟨mergeFill_value_self_scalar _ (by simp) (by simp),
            mergeFill_idem_of_scalar _ (by simp) (by simp)⟩
      | str s =>
          exact ⟨mergeFill_value_self_scalar _ (by simp) (by simp),
            mergeFill_idem_of_scalar _ (by simp) (by simp)⟩
      | obj inc hmem hnd =>
          have hIH : ∀ kv ∈ inc, ((mergeFill kv.2 kv.2).value = kv.2) ∧
              (∀ D, (mergeFill (mergeFill D kv.2).value kv.2).value
                = (mergeFill D kv.2).value) := by
            intro kv hkv
            have h1 : sizeOf kv < sizeOf inc := List.sizeOf_lt_of_mem hkv
            have h2 : sizeOf (Json.obj inc) = 1 + sizeOf inc := by simp
            have h3 : sizeOf kv.2 < sizeOf kv := by
              obtain ⟨a, b⟩ := kv
              simp
            exact ihn kv.2 (by omega) (hmem kv hkv)
          have hself : (mergeFill (Json.obj inc) (Json.obj inc)).value = Json.obj inc := by
            rw [mergeFill_obj_obj]
            refine congrArg Json.obj (objLoop_fixed_point false ?_)
            intro kv hkv
            obtain ⟨k, iv⟩ := kv
            exact ⟨iv, alookup_of_mem_nodup hkv hnd, (hIH (k, iv) hkv).1⟩
          refine ⟨hself, ?_⟩
          intro D
          by_cases hD : isNullOrEmptyStr D = true
          · have hM : (mergeFill D (Json.obj inc)).value = Json.obj inc := by
              rw [mergeFill_nullish _ hD]
            rw [hM]
            exact hself
          · have hDf := bool_eq_false hD
            cases D with
            | null => simp [isNullOrEmptyStr] at hDf
            | bool b =>
                have hM : (mergeFill (Json.bool b) (Json.obj inc)).value = Json.bool b := by
                  rw [mergeFill_base_of _ _ hDf (by simp) (by simp)]
                rw [hM]
                exact hM
            | num q =>
                have hM : (mergeFill (Json.num q) (Json.obj inc)).value = Json.num q := by
                  rw [mergeFill_base_of _ _ hDf (by simp) (by simp)]
                rw [hM]
                exact hM
            | str s =>
                have hM : (mergeFill (Json.str s) (Json.obj inc)).value = Json.str s := by
                  rw [mergeFill_base_of _ _ hDf (by simp) (by simp)]
                rw [hM]
                exact hM
            | arr cs =>
                have hM : (mergeFill (Json.arr cs) (Json.obj inc)).value = Json.arr cs := by
                  rw [mergeFill_base_of _ _ hDf (by simp) (by simp)]
                rw [hM]
                exact hM
            | obj cf =>
                have hM : (mergeFill (Json.obj cf) (Json.obj inc)).value
                    = Json.obj ((mergeFillObjectLoop cf false inc).1) := by
                  rw [mergeFill_obj_obj]
                rw [hM]
                rw [mergeFill_obj_obj]
                refine congrArg Json.obj (objLoop_fixed_point false ?_)
                intro kv hkv
                obtain ⟨k, iv⟩ := kv
                have hlk := objLoop_alookup_of_mem hkv hnd cf false
                cases hcf : alookup cf k with
                | some cv =>
                    rw [hcf] at hlk
                    exact ⟨(mergeFill cv iv).value, hlk, (hIH (k, iv) hkv).2 cv⟩
                | none =>
                    rw [hcf] at hlk
                    exact ⟨iv, hlk, (hIH (k, iv) hkv).1⟩

/-- Claim C2 (amended): the fill merge is idempotent whenever the incoming
document contains no arrays (and, as JavaScript guarantees, no object has
duplicate keys): merging the same incoming document a second time returns
the first result unchanged. -/
theorem mergeFill_idem_arrayFree (D I : Json) (h : ArrayFreeDoc I) :
    (mergeFill (mergeFill D I).value I).value = (mergeFill D I).value :=
  (mergeFill_selfIdem_aux (sizeOf I) I (le_refl _) h).2 D

theorem fill_merge_idem_ce_first :
    (mergeFill mergeIdemCurrent mergeIdemIncoming).value
      = Json.arr [Json.obj [("product_id", Json.str "a"), ("id", Json.str "y")]] := by
  simp [mergeIdemCurrent, mergeIdemIncoming, mergeFill, isNullOrEmptyStr, mergeFillArrayLoop,
    mergeFillObjectLoop, detectIdKey, idKeys, idKeyEveryOk, idKeyHasAny, getStrField, alookup,
    truthy, indexByIdGet, replaceField, Json.isStr, List.find?, List.enum, List.filterMap]

theorem fill_merge_idem_ce_second :
    (mergeFill (Json.arr [Json.obj [("product_id", Json.str "a"), ("id", Json.str "y")]])
        mergeIdemIncoming).value
      = Json.arr [Json.obj [("product_id", Json.str "a"), ("id", Json.str "y")],
          Json.obj [("id", Json.str "x")]] := by
  simp [mergeIdemIncoming, mergeFill, isNullOrEmptyStr, mergeFillArrayLoop,
    mergeFillObjectLoop, detectIdKey, idKeys, idKeyEveryOk, idKeyHasAny, getStrField, alookup,
    truthy, indexByIdGet, replaceField, Json.isStr, List.find?, List.enum, List.filterMap]

/-- Counterexample to claim C2: `mergeFill` is not idempotent.  The first
merge resolves the arrays by `product_id` and copies an `id` into the stored
element; the second merge then detects `id` as the identity key and appends
a duplicate of the first incoming element. -/
theorem fill_merge_idempotence_counterexample :
    (mergeFill (mergeFill mergeIdemCurrent mergeIdemIncoming).value mergeIdemIncoming).value
      ≠ (mergeFill mergeIdemCurrent mergeIdemIncoming).value := by
  rw [fill_merge_idem_ce_first, fill_merge_idem_ce_second]
  simp

/-- Counterexample to claim C7: under the claim's qualification rule no
candidate key qualifies for either array (each array exposes `id` as the
non-string `0`, and no other candidate as a string), so the claim predicts
`changed = false` with `current` kept; the code nevertheless detects `id`
(`0` is falsy and tolerated) and appends an element, reporting a change. -/
theorem identity_key_detection_counterexample :
    (idKeys.all fun k => !specQualifiesOrig ceDetectCurrent k) = true ∧
    (idKeys.all fun k => !specQualifiesOrig ceDetectIncoming k) = true ∧
    (mergeFill (Json.arr ceDetectCurrent) (Json.arr ceDetectIncoming)).changed = true ∧
    (mergeFill (Json.arr ceDetectCurrent) (Json.arr ceDetectIncoming)).value
      ≠ Json.arr ceDetectCurrent := by
  refine ⟨by decide, by decide, ?_, ?_⟩
  · simp [ceDetectCurrent, ceDetectIncoming, mergeFill, isNullOrEmptyStr, mergeFillArrayLoop,
      mergeFillObjectLoop, detectIdKey, idKeys, idKeyEveryOk, idKeyHasAny, getStrField, alookup,
      truthy, indexByIdGet, replaceField, Json.isStr, List.find?, List.enum, List.filterMap]
  · simp [ceDetectCurrent, ceDetectIncoming, mergeFill, isNullOrEmptyStr, mergeFillArrayLoop,
      mergeFillObjectLoop, detectIdKey, idKeys, idKeyEveryOk, idKeyHasAny, getStrField, alookup,
      truthy, indexByIdGet, replaceField, Json.isStr, List.find?, List.enum, List.filterMap]

theorem all_not_eq_not_any {α : Type} (l : List α) (p : α → Bool) :
    (l.all fun x => !p x) = !(l.any p) := by
  induction l with
  | nil => rfl
  | cons x rest ih => simp [List.all_cons, List.any_cons, ih]

theorem everyOk_eq_not_any (a : List Json) (k : String) :
    idKeyEveryOk a k = !(a.any fun x => specExposesTruthyNonStr x k) := by
  rw [← all_not_eq_not_any]
  simp only [idKeyEveryOk]
  congr 1
  funext x
  cases x with
  | null => rfl
  | bool b => rfl
  | num q => rfl
  | str s => rfl
  | arr l => rfl
  | obj fs =>
      simp only [specExposesTruthyNonStr]
      cases alookup fs k with
      | none => rfl
      | some v => cases htv : truthy v <;> cases hsv : Json.isStr v <;> simp [htv, hsv]

theorem detectIdKey_eq_spec (a : List Json) :
    detectIdKey a = idKeys.find? (specQualifiesAmended a) := by
  simp only [detectIdKey]
  congr 1
  funext k
  rw [everyOk_eq_not_any]
  simp only [idKeyHasAny, specExposesStr, specQualifiesAmended]
  rw [Bool.and_comm]

/-- Claim C7 (amended): the identity key is detected by examining `current`
then `incoming`, trying the candidate keys in order; a key qualifies for an
array exactly when at least one element exposes it as a string and no
element exposes it as a truthy non-string value (falsy values do not
disqualify); if no key qualifies for either array, `current` is kept
unchanged with `changed = false`, and a key detected on `current` is the one
used regardless of `incoming`. -/
theorem identity_key_detection_amended :
    (∀ a : List Json, detectIdKey a = idKeys.find? (specQualifiesAmended a)) ∧
    (∀ cs is : List Json, cs ≠ [] →
      idKeys.find? (specQualifiesAmended cs) = none →
      idKeys.find? (specQualifiesAmended is) = none →
      mergeFill (Json.arr cs) (Json.arr is) = ⟨Json.arr cs, false⟩) ∧
    (∀ (cs is : List Json) (k : String), cs ≠ [] →
      idKeys.find? (specQualifiesAmended cs) = some k →
      mergeFill (Json.arr cs) (Json.arr is)
        = ⟨Json.arr (mergeFillArrayLoop k cs cs false is).1,
           (mergeFillArrayLoop k cs cs false is).2⟩) := by
  refine ⟨detectIdKey_eq_spec, ?_, ?_⟩
  · intro cs is hne h1 h2
    rw [mergeFill_arr_arr]
    have hemp : (cs.isEmpty && !is.isEmpty) = false := by
      cases cs with
      | nil => exact absurd rfl hne
      | cons a l => rfl
    have hemp' : ¬((cs.isEmpty && !is.isEmpty) = true) := by
      rw [hemp]
      simp
    rw [if_neg hemp']
    rw [detectIdKey_eq_spec cs, detectIdKey_eq_spec is, h1, h2]
    rfl
  · intro cs is k hne h1
    rw [mergeFill_arr_arr]
    have hemp : (cs.isEmpty && !is.isEmpty) = false := by
      cases cs with
      | nil => exact absurd rfl hne
      | cons a l => rfl
    have hemp' : ¬((cs.isEmpty && !is.isEmpty) = true) := by
      rw [hemp]
      simp
    rw [if_neg hemp']
    rw [detectIdKey_eq_spec cs, h1]
    rfl

/-- Witness for the amended C7 at a concrete input: an array exposing none
of the candidate keys is kept unchanged. -/
theorem identity_key_detection_amended_witness :
    mergeFill (Json.arr [Json.obj [("x", Json.str "y")]]) (Json.arr [])
      = ⟨Json.arr [Json.obj [("x", Json.str "y")]], false⟩ :=
  identity_key_detection_amended.2.1 [Json.obj [("x", Json.str "y")]] [] (by simp) rfl rfl

/-- Witness for the amended C2 at a concrete array-free input. -/
theorem mergeFill_idem_arrayFree_witness :
    (mergeFill (mergeFill (Json.obj [("a", Json.null)])
        (Json.obj [("a", Json.str "x"), ("b", Json.num 1)])).value
      (Json.obj [("a", Json.str "x"), ("b", Json.num 1)])).value
      = (mergeFill (Json.obj [("a", Json.null)])
          (Json.obj [("a", Json.str "x"), ("b", Json.num 1)])).value :=
  mergeFill_idem_arrayFree (Json.obj [("a", Json.null)])
    (Json.obj [("a", Json.str "x"), ("b", Json.num 1)]) (by
      refine ArrayFreeDoc.obj _ ?_ (by simp)
      intro kv hkv
      rcases List.mem_cons.mp hkv with h | h
      · subst h
        exact ArrayFreeDoc.str _
      · rcases List.mem_cons.mp h with h2 | h2
        · subst h2
          exact ArrayFreeDoc.num _
        · simp at h2)

theorem dedup_foldl_mem :
    ∀ (l acc : List String) (x : String),
      x ∈ l.foldl (fun acc x => if x ∈ acc then acc else acc ++ [x]) acc ↔ x ∈ acc ∨ x ∈ l := by
  intro l
  induction l with
  | nil => intro acc x; simp
  | cons y rest ih =>
      intro acc x
      rw [List.foldl_cons]
      by_cases hy : y ∈ acc
      · rw [if_pos hy, ih]
        constructor
        · rintro (h | h)
          · exact Or.inl h
          · exact Or.inr (List.mem_cons_of_mem _ h)
        · rintro (h | h)
          · exact Or.inl h
          · rcases List.mem_cons.mp h with rfl | h2
            · exact Or.inl hy
            · exact Or.inr h2
      · rw [if_neg hy, ih]
        simp [List.mem_append]
        constructor
        · rintro ((h | rfl) | h)
          · exact Or.inl h
          · exact Or.inr (Or.inl rfl)
          · exact Or.inr (Or.inr h)
        · rintro (h | (rfl | h))
          · exact Or.inl (Or.inl h)
          · exact Or.inl (Or.inr rfl)
          · exact Or.inr h

theorem dedup_foldl_nodup :
    ∀ (l acc : List String), acc.Nodup →
      (l.foldl (fun acc x => if x ∈ acc then acc else acc ++ [x]) acc).Nodup := by
  intro l
  induction l with
  | nil => intro acc h; exact h
  | cons y rest ih =>
      intro acc h
      rw [List.foldl_cons]
      by_cases hy : y ∈ acc
      · rw [if_pos hy]
        exact ih acc h
      · rw [if_neg hy]
        refine ih _ ?_
        rw [List.nodup_append]
        refine ⟨h, List.nodup_singleton _, ?_⟩
        intro a ha hmem
        rw [List.mem_singleton] at hmem
        subst hmem
        exact hy ha

theorem dedup_foldl_split :
    ∀ (l acc : List String), ∃ tail,
      l.foldl (fun acc x => if x ∈ acc then acc else acc ++ [x]) acc = acc ++ tail ∧
      ∀ x ∈ tail, x ∉ acc := by
  intro l
  induction l with
  | nil => intro acc; exact ⟨[], by simp, by simp⟩
  | cons y rest ih =>
      intro acc
      rw [List.foldl_cons]
      by_cases hy : y ∈ acc
      · rw [if_pos hy]
        exact ih acc
      · rw [if_neg hy]
        obtain ⟨tail, heq, hnotin⟩ := ih (acc ++ [y])
        refine ⟨y :: tail, ?_, ?_⟩
        · rw [heq, List.append_assoc]
          rfl
        · intro x hx
          rcases List.mem_cons.mp hx with rfl | hx2
          · exact hy
          · intro hxacc
            exact hnotin x hx2 (List.mem_append.mpr (Or.inl hxacc))

theorem mem_dedupKeepFirst (l : List String) (x : String) :
    x ∈ dedupKeepFirst l ↔ x ∈ l := by
  rw [dedupKeepFirst, dedup_foldl_mem]
  simp

theorem nodup_dedupKeepFirst (l : List String) : (dedupKeepFirst l).Nodup :=
  dedup_foldl_nodup l [] (List.nodup_nil)

theorem buildScopedDeleteOrder_nodup (md at_ : List String) :
    (buildScopedDeleteOrder md at_).Nodup := by
  simp only [buildScopedDeleteOrder]
  by_cases hsc : "sales_channel" ∈ dedupKeepFirst (at_ ++ md)
  · rw [if_pos hsc]
    rw [List.nodup_append]
    refine ⟨List.Nodup.filter _ (nodup_dedupKeepFirst _), List.nodup_singleton _, ?_⟩
    simp only [List.disjoint_singleton]
    intro hmem
    have := List.of_mem_filter hmem
    simp at this
  · rw [if_neg hsc]
    exact List.Nodup.filter _ (nodup_dedupKeepFirst _)

theorem buildScopedDeleteOrder_mem (md at_ : List String) (t : String) :
    t ∈ buildScopedDeleteOrder md at_ ↔ t ∈ at_ ∨ t ∈ md := by
  simp only [buildScopedDeleteOrder]
  by_cases hsc : "sales_channel" ∈ dedupKeepFirst (at_ ++ md)
  · rw [if_pos hsc]
    rw [List.mem_append]
    constructor
    · rintro (h | h)
      · have := List.of_mem_filter h
        have hmem := List.mem_of_mem_filter h
        rw [mem_dedupKeepFirst, List.mem_append] at hmem
        exact hmem
      · simp at h
        subst h
        rw [mem_dedupKeepFirst, List.mem_append] at hsc
        exact hsc
    · intro h
      by_cases ht : t = "sales_channel"
      · subst ht
        exact Or.inr (by simp)
      · refine Or.inl (List.mem_filter.mpr ⟨?_, ?_⟩)
        · rw [mem_dedupKeepFirst, List.mem_append]
          exact h
        · simp [ht]
  · rw [if_neg hsc]
    constructor
    · intro h
      have hmem := List.mem_of_mem_filter h
      rw [mem_dedupKeepFirst, List.mem_append] at hmem
      exact hmem
    · intro h
      by_cases ht : t = "sales_channel"
      · subst ht
        exact absurd (by rw [mem_dedupKeepFirst, List.mem_append]; exact h) hsc
      · refine List.mem_filter.mpr ⟨?_, ?_⟩
        · rw [mem_dedupKeepFirst, List.mem_append]
          exact h
        · simp [ht]

theorem sc_not_in_assignment : "sales_channel" ∉ CHANNEL_ASSIGNMENT_TABLES := by
  decide

theorem buildScopedDeleteOrder_split (md at_ : List String)
    (hsub : ∀ t ∈ at_, t ∈ CHANNEL_ASSIGNMENT_TABLES) :
    ∃ pre post, buildScopedDeleteOrder md at_ = pre ++ post ∧
      (∀ x ∈ pre, x ∈ at_) ∧ (∀ x ∈ post, x ∉ at_) := by
  obtain ⟨tail, heq, hnot⟩ := dedup_foldl_split md (dedupKeepFirst at_)
  have hsplit : dedupKeepFirst (at_ ++ md) = dedupKeepFirst at_ ++ tail := by
    rw [dedupKeepFirst, List.foldl_append]
    exact heq
  have hprene : ∀ x ∈ dedupKeepFirst at_, (x != "sales_channel") = true := by
    intro x hx
    rw [mem_dedupKeepFirst] at hx
    have hcat := hsub x hx
    simp only [bne_iff_ne, ne_eq]
    intro hxeq
    rw [hxeq] at hcat
    exact sc_not_in_assignment hcat
  have hfilter : (dedupKeepFirst at_).filter (fun t => t != "sales_channel")
      = dedupKeepFirst at_ := List.filter_eq_self.mpr hprene
  have htailnot : ∀ x ∈ tail, x ∉ at_ := by
    intro x hx hxa
    exact hnot x hx ((mem_dedupKeepFirst at_ x).mpr hxa)
  simp only [buildScopedDeleteOrder]
  rw [hsplit, List.filter_append, hfilter]
  by_cases hsc : "sales_channel" ∈ dedupKeepFirst at_ ++ tail
  · rw [if_pos hsc]
    refine ⟨dedupKeepFirst at_, tail.filter (fun t => t != "sales_channel") ++ ["sales_channel"],
      by rw [List.append_assoc], fun x hx => (mem_dedupKeepFirst at_ x).mp hx, ?_⟩
    intro x hx
    rcases List.mem_append.mp hx with h | h
    · exact htailnot x (List.mem_of_mem_filter h)
    · rw [List.mem_singleton] at h
      subst h
      intro hxa
      exact sc_not_in_assignment (hsub _ hxa)
  · rw [if_neg hsc]
    exact ⟨dedupKeepFirst at_, tail.filter (fun t => t != "sales_channel"), rfl,
      fun x hx => (mem_dedupKeepFirst at_ x).mp hx,
      fun x hx => htailnot x (List.mem_of_mem_filter hx)⟩

theorem buildScopedDeleteOrder_last (md at_ : List String)
    (h : "sales_channel" ∈ at_ ∨ "sales_channel" ∈ md) :
    (buildScopedDeleteOrder md at_).getLast? = some "sales_channel" := by
  simp only [buildScopedDeleteOrder]
  have hsc : "sales_channel" ∈ dedupKeepFirst (at_ ++ md) := by
    rw [mem_dedupKeepFirst, List.mem_append]
    exact h
  rw [if_pos hsc]
  exact List.getLast?_concat _

/-- Claim C8: the deletion order used by `delete` and `overwrite` contains
each table exactly once, places every assignment table before every
metadata-scoped-only table, and places `sales_channel` last whenever it
occurs.  The assignment tables are always drawn from the fixed
`CHANNEL_ASSIGNMENT_TABLES` list (which does not contain `sales_channel`),
captured by the subset hypothesis. -/
theorem scoped_delete_order_correct (md at_ : List String)
    (hsub : ∀ t ∈ at_, t ∈ CHANNEL_ASSIGNMENT_TABLES) :
    (buildScopedDeleteOrder md at_).Nodup ∧
    (∀ t, t ∈ buildScopedDeleteOrder md at_ ↔ t ∈ at_ ∨ t ∈ md) ∧
    (∃ pre post, buildScopedDeleteOrder md at_ = pre ++ post ∧
      (∀ x ∈ pre, x ∈ at_) ∧ (∀ x ∈ post, x ∉ at_)) ∧
    ("sales_channel" ∈ at_ ∨ "sales_channel" ∈ md →
      (buildScopedDeleteOrder md at_).getLast? = some "sales_channel") :=
  ⟨buildScopedDeleteOrder_nodup md at_,
   buildScopedDeleteOrder_mem md at_,
   buildScopedDeleteOrder_split md at_ hsub,
   buildScopedDeleteOrder_last md at_⟩

/-- Witness for C8 at concrete inputs: two metadata tables (one of them
`sales_channel`) and one assignment table. -/
theorem scoped_delete_order_correct_witness :
    (buildScopedDeleteOrder ["brand", "sales_channel"] ["product_sales_channel"]).Nodup ∧
    (∀ t, t ∈ buildScopedDeleteOrder ["brand", "sales_channel"] ["product_sales_channel"] ↔
      t ∈ ["product_sales_channel"] ∨ t ∈ ["brand", "sales_channel"]) ∧
    (∃ pre post,
      buildScopedDeleteOrder ["brand", "sales_channel"] ["product_sales_channel"]
        = pre ++ post ∧
      (∀ x ∈ pre, x ∈ ["product_sales_channel"]) ∧
      (∀ x ∈ post, x ∉ ["product_sales_channel"])) ∧
    ("sales_channel" ∈ ["product_sales_channel"] ∨ "sales_channel" ∈ ["brand", "sales_channel"] →
      (buildScopedDeleteOrder ["brand", "sales_channel"] ["product_sales_channel"]).getLast?
        = some "sales_channel") :=
  scoped_delete_order_correct ["brand", "sales_channel"] ["product_sales_channel"] (by decide)

/-- Claim C6: the production guard.  For `overwrite` and `delete` on a
prod-like instance id without the `GP_ALLOW_PROD_MUTATIONS=true` override,
the run fails with the guard error before the database connection is
opened; `fill` and `export` are never blocked by this rule. -/
theorem production_guard (args : CliArgs) (envAllow envDb : Option String) (stdin : String) :
    ((args.operation = Operation.overwrite ∨ args.operation = Operation.delete) →
      isProdLike args.instanceId = true → envAllow ≠ some "true" →
      runCliPrelude args envAllow envDb stdin = Except.error CliError.prodBlocked ∧
      runCliConnectsDb args envAllow envDb stdin = false) ∧
    ((args.operation = Operation.fill ∨ args.operation = Operation.exportOp) →
      ensureSafeDestructiveOperation args envAllow = Except.ok ()) := by
  constructor
  · intro hop hprod henv
    have hbe : (envAllow == some "true") = false := beq_eq_false_iff_ne.mpr henv
    have hguard : ensureSafeDestructiveOperation args envAllow
        = Except.error CliError.prodBlocked := by
      rw [ensureSafeDestructiveOperation, if_pos hop]
      rw [if_pos (by rw [hprod, hbe]; rfl)]
    have hprel : runCliPrelude args envAllow envDb stdin = Except.error CliError.prodBlocked := by
      rw [runCliPrelude]
      rw [hguard]
      rfl
    refine ⟨hprel, ?_⟩
    rw [runCliConnectsDb, hprel]
  · intro hfe
    have hne : ¬(args.operation = Operation.overwrite ∨ args.operation = Operation.delete) := by
      rcases hfe with h | h <;> rw [h] <;> decide
    rw [ensureSafeDestructiveOperation, if_neg hne]

/-- Witness for C6: a `delete` on instance `gp-prod` with the override env
unset fails with the guard error and never reaches the connection phase;
a `fill` on the same instance passes the guard. -/
theorem production_guard_witness :
    (runCliPrelude ⟨"gp-prod", "m", Operation.delete, none, false, true, false⟩ none
        (some "postgres://x") "" = Except.error CliError.prodBlocked ∧
      runCliConnectsDb ⟨"gp-prod", "m", Operation.delete, none, false, true, false⟩ none
        (some "postgres://x") "" = false) ∧
    ensureSafeDestructiveOperation ⟨"gp-prod", "m", Operation.fill, none, false, true, false⟩ none
      = Except.ok () := by
  constructor
  · exact (production_guard ⟨"gp-prod", "m", Operation.delete, none, false, true, false⟩ none
      (some "postgres://x") "").1 (Or.inr rfl) (by decide) (by simp)
  · exact (production_guard ⟨"gp-prod", "m", Operation.fill, none, false, true, false⟩ none
      (some "postgres://x") "").2 (Or.inl rfl)

/-- Counterexample to claim C9: a vendor directory `v1` whose file says
`vendor_id: "other"` loads successfully, but NO warning is recorded and the
directory name `v1` — not the file's `"other"` — becomes the stored row's
`record_key`. -/
theorem vendor_id_disagreement_counterexample :
    loadVendorConfigs (fun _ => true) ceVendorEntries
      = Except.ok ⟨[("v1", Json.obj [("vendor_id", Json.str "other")])], []⟩ ∧
    (makeIncomingRows ⟨none, none, [("v1", Json.obj [("vendor_id", Json.str "other")])], []⟩).map
        StoredRow.record_key = ["v1"] ∧
    "v1" ≠ "other" := by
  refine ⟨rfl, rfl, by decide⟩

/-- Claim C9 (amended): the vendor loader succeeds whenever every present
file validates; the collected vendors are exactly the directories holding a
products file, keyed by DIRECTORY NAME regardless of any `vendor_id` field
inside the file; the warnings are exactly the missing-file warnings (no
warning is emitted for a `vendor_id` disagreeing with its directory); and
the stored rows' record keys are those directory names. -/
theorem vendor_loader_uses_directory_names (validate : Json → Bool) :
    (∀ entries : List VendorEntry,
      (∀ e ∈ entries, ∀ doc, e.productsFile = some doc → validate doc = true) →
      loadVendorConfigs validate entries = Except.ok
        ⟨entries.filterMap fun e =>
            if e.isDirectory then e.productsFile.map fun doc => (e.name, doc) else none,
         (entries.filter fun e => e.isDirectory && e.productsFile.isNone).map
            fun e => "Missing file: vendors/" ++ e.name ++ "/products.yaml"⟩) ∧
    (∀ vendors : List (String × Json),
      (makeIncomingRows ⟨none, none, vendors, []⟩).map StoredRow.record_key
        = vendors.map Prod.fst) := by
  constructor
  · intro entries
    induction entries with
    | nil => intro _; rfl
    | cons e rest ih =>
        intro hval
        have hrest : ∀ e ∈ rest, ∀ doc, e.productsFile = some doc → validate doc = true :=
          fun e he doc hd => hval e (List.mem_cons_of_mem _ he) doc hd
        cases hd : e.isDirectory with
        | false =>
            rw [loadVendorConfigs]
            rw [hd]
            simp only [Bool.not_false, if_true]
            rw [ih hrest]
            simp [List.filterMap_cons, List.filter_cons, hd]
        | true =>
            rw [loadVendorConfigs]
            rw [hd]
            simp only [Bool.not_true, Bool.false_eq_true, if_false]
            cases hf : e.productsFile with
            | none =>
                rw [ih hrest]
                show Except.ok _ = Except.ok _
                simp [List.filterMap_cons, List.filter_cons, hd, hf]
            | some doc =>
                show (if validate doc = true then
                    do
                      let r ← loadVendorConfigs validate rest
                      Except.ok ({ vendors := (e.name, doc) :: r.vendors,
                                   warnings := r.warnings } : VendorLoadResult)
                  else Except.error
                    ("Schema validation failed for vendors/" ++ e.name ++ "/products.yaml")) = _
                rw [if_pos (hval e (List.mem_cons_self _ _) doc hf)]
                rw [ih hrest]
                show Except.ok _ = Except.ok _
                simp [List.filterMap_cons, List.filter_cons, hd, hf]
  · intro vendors
    simp [makeIncomingRows]

/-- Witness for the amended C9 at concrete inputs: one directory with a
file whose `vendor_id` disagrees, one directory without a file, one plain
file entry. -/
theorem vendor_loader_uses_directory_names_witness :
    loadVendorConfigs (fun _ => true)
      [⟨"v1", true, some (Json.obj [("vendor_id", Json.str "other")])⟩,
       ⟨"v2", true, none⟩,
       ⟨"README.md", false, none⟩]
      = Except.ok ⟨[("v1", Json.obj [("vendor_id", Json.str "other")])],
          ["Missing file: vendors/v2/products.yaml"]⟩ := by
  have h := (vendor_loader_uses_directory_names (fun _ => true)).1
    [⟨"v1", true, some (Json.obj [("vendor_id", Json.str "other")])⟩,
     ⟨"v2", true, none⟩,
     ⟨"README.md", false, none⟩]
    (by intro e he doc hd; rfl)
  exact h

theorem deleteRowsWhere_other :
    ∀ (tables : List (String × List Row)) (t : String) (pred : Row → Bool) (t' : String),
      t' ≠ t → alookup (deleteRowsWhere tables t pred).1 t' = alookup tables t' := by
  intro tables
  induction tables with
  | nil => intro t pred t' _; rfl
  | cons e rest ih =>
      intro t pred t' hne
      obtain ⟨name, rows⟩ := e
      by_cases hn : name = t
      · subst hn
        simp only [deleteRowsWhere, if_pos rfl]
        simp [alookup, Ne.symm hne]
      · simp only [deleteRowsWhere, if_neg hn]
        by_cases hn' : name = t'
        · subst hn'
          simp [alookup]
        · simp [alookup, hn']
          exact ih t pred t' hne

theorem deleteRowsWhere_count :
    ∀ (tables : List (String × List Row)) (t : String) (pred : Row → Bool),
      (deleteRowsWhere tables t pred).2 = countRowsWhere tables t pred := by
  intro tables
  induction tables with
  | nil => intro t pred; rfl
  | cons e rest ih =>
      intro t pred
      obtain ⟨name, rows⟩ := e
      by_cases hn : name = t
      · subst hn
        simp [deleteRowsWhere, countRowsWhere, getTableRows, alookup]
      · simp only [deleteRowsWhere, if_neg hn]
        rw [ih]
        simp [countRowsWhere, getTableRows, alookup, hn]

theorem scopedDeleteStep_tables_dry (marketId : String) (scIds : List String)
    (at_ : List String) (ms : List (String × String)) (st : ScopedDeleteState) (t : String) :
    (scopedDeleteStep marketId true scIds at_ ms st t).tables = st.tables := by
  rw [scopedDeleteStep]
  by_cases h1 : t ∈ at_
  · rw [if_pos h1]
    by_cases h2 : scIds = []
    · rw [if_pos h2]
    · rw [if_neg h2, if_pos rfl]
  · rw [if_neg h1]
    cases ms.find? (fun m => m.1 == t) with
    | none => rfl
    | some tc => rfl

theorem scopedDeleteStep_deleted (marketId : String) (dryRun : Bool) (scIds : List String)
    (at_ : List String) (ms : List (String × String)) (st : ScopedDeleteState) (t : String) :
    (scopedDeleteStep marketId dryRun scIds at_ ms st t).deleted
      = st.deleted + scopedTableWeight marketId scIds at_ ms st.tables t := by
  rw [scopedDeleteStep, scopedTableWeight]
  by_cases h1 : t ∈ at_
  · rw [if_pos h1, if_pos h1]
    by_cases h2 : scIds = []
    · rw [if_pos h2, if_pos h2]
      simp
    · rw [if_neg h2, if_neg h2]
      cases dryRun with
      | true => rw [if_pos rfl]
      | false =>
          rw [if_neg (by simp)]
          simp [deleteRowsWhere_count]
  · rw [if_neg h1, if_neg h1]
    cases ms.find? (fun m => m.1 == t) with
    | none => simp
    | some tc =>
        cases dryRun with
        | true => rfl
        | false =>
            exact congrArg (fun n => st.deleted + n)
              (deleteRowsWhere_count st.tables t fun r => colScopeMatch r tc.2 marketId)

theorem scopedDeleteStep_tables_other (marketId : String) (dryRun : Bool) (scIds : List String)
    (at_ : List String) (ms : List (String × String)) (st : ScopedDeleteState) (t t' : String)
    (hne : t' ≠ t) :
    alookup (scopedDeleteStep marketId dryRun scIds at_ ms st t).tables t'
      = alookup st.tables t' := by
  rw [scopedDeleteStep]
  by_cases h1 : t ∈ at_
  · rw [if_pos h1]
    by_cases h2 : scIds = []
    · rw [if_pos h2]
    · rw [if_neg h2]
      cases dryRun with
      | true => rfl
      | false => exact deleteRowsWhere_other st.tables t (assignmentRowMatches scIds) t' hne
  · rw [if_neg h1]
    cases ms.find? (fun m => m.1 == t) with
    | none => rfl
    | some tc =>
        cases dryRun with
        | true => rfl
        | false =>
            exact deleteRowsWhere_other st.tables t (fun r => colScopeMatch r tc.2 marketId) t' hne

theorem scopedTableWeight_congr (marketId : String) (scIds : List String) (at_ : List String)
    (ms : List (String × String)) (tables1 tables2 : List (String × List Row)) (t : String)
    (h : alookup tables1 t = alookup tables2 t) :
    scopedTableWeight marketId scIds at_ ms tables1 t
      = scopedTableWeight marketId scIds at_ ms tables2 t := by
  have hcount : ∀ pred, countRowsWhere tables1 t pred = countRowsWhere tables2 t pred := by
    intro pred
    rw [countRowsWhere, countRowsWhere, getTableRows, getTableRows, h]
  rw [scopedTableWeight, scopedTableWeight]
  by_cases h1 : t ∈ at_
  · rw [if_pos h1, if_pos h1]
    by_cases h2 : scIds = []
    · rw [if_pos h2, if_pos h2]
    · rw [if_neg h2, if_neg h2, hcount]
  · rw [if_neg h1, if_neg h1]
    cases ms.find? (fun m => m.1 == t) with
    | none => rfl
    | some tc => exact hcount _

theorem scopedFold_tables_dry (marketId : String) (scIds : List String) (at_ : List String)
    (ms : List (String × String)) :
    ∀ (order : List String) (st : ScopedDeleteState),
      ((order.foldl (scopedDeleteStep marketId true scIds at_ ms) st).tables) = st.tables := by
  intro order
  induction order with
  | nil => intro st; rfl
  | cons t rest ih =>
      intro st
      rw [List.foldl_cons, ih, scopedDeleteStep_tables_dry]

theorem scopedFold_deleted_sum (marketId : String) (dryRun : Bool) (scIds : List String)
    (at_ : List String) (ms : List (String × String)) :
    ∀ (order : List String) (st : ScopedDeleteState) (tables0 : List (String × List Row)),
      order.Nodup →
      (∀ t ∈ order, alookup st.tables t = alookup tables0 t) →
      (order.foldl (scopedDeleteStep marketId dryRun scIds at_ ms) st).deleted
        = st.deleted + (order.map (scopedTableWeight marketId scIds at_ ms tables0)).sum := by
  intro order
  induction order with
  | nil => intro st tables0 _ _; simp
  | cons t rest ih =>
      intro st tables0 hnd hag
      rw [List.foldl_cons]
      have hndrest : rest.Nodup := hnd.of_cons
      have htnotin : t ∉ rest := by
        rw [List.nodup_cons] at hnd
        exact hnd.1
      have hagrest : ∀ t' ∈ rest,
          alookup (scopedDeleteStep marketId dryRun scIds at_ ms st t).tables t'
            = alookup tables0 t' := by
        intro t' ht'
        have hne : t' ≠ t := fun h => htnotin (h ▸ ht')
        rw [scopedDeleteStep_tables_other marketId dryRun scIds at_ ms st t t' hne]
        exact hag t' (List.mem_cons_of_mem _ ht')
      rw [ih _ tables0 hndrest hagrest]
      rw [scopedDeleteStep_deleted]
      rw [scopedTableWeight_congr marketId scIds at_ ms st.tables tables0 t
        (hag t (List.mem_cons_self _ _))]
      simp [List.map_cons, List.sum_cons]
      omega

theorem scopedFold_tables_preserve (marketId : String) (scIds : List String)
    (at_ : List String) (ms : List (String × String)) (T : String)
    (hT1 : T ∉ at_) (hT2 : ∀ tc ∈ ms, tc.1 ≠ T) :
    ∀ (order : List String) (st : ScopedDeleteState),
      alookup ((order.foldl (scopedDeleteStep marketId false scIds at_ ms) st).tables) T
        = alookup st.tables T := by
  intro order
  induction order with
  | nil => intro st; rfl
  | cons t rest ih =>
      intro st
      rw [List.foldl_cons, ih]
      by_cases hT : T = t
      · subst hT
        rw [scopedDeleteStep]
        rw [if_neg hT1]
        cases hfind : ms.find? (fun m => m.1 == T) with
        | none => rfl
        | some tc =>
            have hmem := List.mem_of_find?_eq_some hfind
            have hpred := List.find?_some hfind
            rw [beq_iff_eq] at hpred
            exact absurd hpred (hT2 tc hmem)
      · exact scopedDeleteStep_tables_other marketId false scIds at_ ms st t T hT

theorem executeFillStep_storage_dry (i m : String) (ex : List StorageRow) (st : FillState)
    (row : StoredRow) : (executeFillStep i m true ex st row).storage = st.storage := by
  rw [executeFillStep]
  cases existingMapGet ex (rowMapKey row.sectionName row.record_key) with
  | none => rfl
  | some e0 =>
      by_cases hch : (mergeFill e0.data row.data).changed = true
      · simp only [hch, if_true]
      · simp only [bool_eq_false hch, Bool.false_eq_true, if_false]

theorem fillFold_storage_dry (i m : String) (ex : List StorageRow) :
    ∀ (incoming : List StoredRow) (st : FillState),
      (incoming.foldl (executeFillStep i m true ex) st).storage = st.storage := by
  intro incoming
  induction incoming with
  | nil => intro st; rfl
  | cons row rest ih =>
      intro st
      rw [List.foldl_cons, ih, executeFillStep_storage_dry]

theorem fillFold_counts_eq (i m : String) (ex : List StorageRow) :
    ∀ (incoming : List StoredRow) (s1 s2 : List StorageRow) (a b c : Nat),
      ((incoming.foldl (executeFillStep i m true ex) ⟨s1, a, b, c⟩).inserted
        = (incoming.foldl (executeFillStep i m false ex) ⟨s2, a, b, c⟩).inserted) ∧
      ((incoming.foldl (executeFillStep i m true ex) ⟨s1, a, b, c⟩).updated
        = (incoming.foldl (executeFillStep i m false ex) ⟨s2, a, b, c⟩).updated) ∧
      ((incoming.foldl (executeFillStep i m true ex) ⟨s1, a, b, c⟩).skipped
        = (incoming.foldl (executeFillStep i m false ex) ⟨s2, a, b, c⟩).skipped) := by
  intro incoming
  induction incoming with
  | nil => intro s1 s2 a b c; exact ⟨rfl, rfl, rfl⟩
  | cons row rest ih =>
      intro s1 s2 a b c
      rw [List.foldl_cons, List.foldl_cons]
      rw [executeFillStep, executeFillStep]
      cases existingMapGet ex (rowMapKey row.sectionName row.record_key) with
      | none => exact ih _ _ (a + 1) b c
      | some e0 =>
          by_cases hch : (mergeFill e0.data row.data).changed = true
          · simp only [hch, if_true]
            exact ih _ _ a (b + 1) c
          · simp only [bool_eq_false hch, Bool.false_eq_true, if_false]
            exact ih _ _ a b (c + 1)

theorem deleteScopedDbConfig_dry_db (db : Db) (m : String) :
    (deleteScopedDbConfig db m true).1 = db := by
  simp only [deleteScopedDbConfig]
  rw [scopedFold_tables_dry]

theorem deleteScopedDbConfig_deleted_eq_sum (db : Db) (m : String) (dryRun : Bool) :
    (deleteScopedDbConfig db m dryRun).2
      = ((buildScopedDeleteOrder ((discoverMetadataScopedTables db m).map Prod.fst)
            (if getScopedSalesChannelIds db m ≠ [] then
              CHANNEL_ASSIGNMENT_TABLES.filter (tableExists db) else [])).map
          (scopedTableWeight m (getScopedSalesChannelIds db m)
            (if getScopedSalesChannelIds db m ≠ [] then
              CHANNEL_ASSIGNMENT_TABLES.filter (tableExists db) else [])
            (discoverMetadataScopedTables db m) db.tables)).sum := by
  simp only [deleteScopedDbConfig]
  rw [scopedFold_deleted_sum _ _ _ _ _ _ _ db.tables (buildScopedDeleteOrder_nodup _ _)
    (fun t _ => rfl)]
  simp

theorem executeFill_dry_db (db : Db) (i m : String) (incoming : List StoredRow) :
    (executeFill db i m incoming true).1 = db := by
  simp only [executeFill]
  rw [fillFold_storage_dry]

theorem executeFill_report_eq (db : Db) (i m : String) (incoming : List StoredRow) :
    (executeFill db i m incoming true).2 = (executeFill db i m incoming false).2 := by
  simp only [executeFill]
  obtain ⟨h1, h2, h3⟩ := fillFold_counts_eq i m (getExistingRows db.storage i m) incoming
    db.storage db.storage 0 0 0
  rw [h1, h2, h3]

theorem executeDelete_dry_db (db : Db) (i m : String) :
    (executeDelete db i m true).1 = db := by
  simp only [executeDelete]
  exact deleteScopedDbConfig_dry_db db m

theorem executeOverwrite_dry_db (db : Db) (i m : String) (incoming : List StoredRow) :
    (executeOverwrite db i m incoming true).1 = db :=
  deleteScopedDbConfig_dry_db db m

theorem executeDelete_report_eq (db : Db) (i m : String) :
    (executeDelete db i m true).2 = (executeDelete db i m false).2 := by
  simp only [executeDelete]
  rw [deleteScopedDbConfig_deleted_eq_sum, deleteScopedDbConfig_deleted_eq_sum]
  rfl

theorem executeOverwrite_report_eq (db : Db) (i m : String) (incoming : List StoredRow) :
    (executeOverwrite db i m incoming true).2 = (executeOverwrite db i m incoming false).2 := by
  simp only [executeOverwrite]
  rw [deleteScopedDbConfig_deleted_eq_sum, deleteScopedDbConfig_deleted_eq_sum]
  rfl

/-- Claim C4: dry-run is effect-free.  With dry-run set, `fill`,
`overwrite` and `delete` leave the database unchanged, `export` writes no
file, the report counters of `fill`/`overwrite`/`delete` equal those of the
corresponding wet run, and the dry `export` reports the stored-row count as
`skipped` while still computing `exported_tables` and `output_path`. -/
theorem dry_run_effect_free (db : Db) (i m : String) (incoming : List StoredRow)
    (outputPath : Option String) (defaultPath generatedAt : String) :
    (executeFill db i m incoming true).1 = db ∧
    (executeOverwrite db i m incoming true).1 = db ∧
    (executeDelete db i m true).1 = db ∧
    (executeExport db i m outputPath defaultPath generatedAt true).2 = [] ∧
    (executeFill db i m incoming true).2 = (executeFill db i m incoming false).2 ∧
    (executeOverwrite db i m incoming true).2 = (executeOverwrite db i m incoming false).2 ∧
    (executeDelete db i m true).2 = (executeDelete db i m false).2 ∧
    (executeExport db i m outputPath defaultPath generatedAt true).1.skipped
      = (getExistingRows db.storage i m).length ∧
    (executeExport db i m outputPath defaultPath generatedAt true).1.exported_tables
      = (executeExport db i m outputPath defaultPath generatedAt false).1.exported_tables ∧
    (executeExport db i m outputPath defaultPath generatedAt true).1.output_path
      = (executeExport db i m outputPath defaultPath generatedAt false).1.output_path :=
  ⟨executeFill_dry_db db i m incoming,
   executeOverwrite_dry_db db i m incoming,
   executeDelete_dry_db db i m,
   rfl,
   executeFill_report_eq db i m incoming,
   executeOverwrite_report_eq db i m incoming,
   executeDelete_report_eq db i m,
   rfl, rfl, rfl⟩

theorem find?_key_eq_of_nodup :
    ∀ {ms : List (String × String)}, (ms.map Prod.fst).Nodup →
      ∀ {tc : String × String}, tc ∈ ms → ms.find? (fun m => m.1 == tc.1) = some tc := by
  intro ms
  induction ms with
  | nil => intro _ tc hmem; simp at hmem
  | cons hd tl ih =>
      intro hnd tc hmem
      simp only [List.map_cons, List.nodup_cons] at hnd
      rcases List.mem_cons.mp hmem with heq | htail
      · subst heq
        rw [List.find?_cons_of_pos _ (by simp)]
      · have hne : hd.1 ≠ tc.1 := by
          intro h
          exact hnd.1 (h ▸ List.mem_map_of_mem Prod.fst htail)
        rw [List.find?_cons_of_neg _ (by simpa using hne)]
        exact ih hnd.2 htail

theorem cat_nodup : CHANNEL_ASSIGNMENT_TABLES.Nodup := by decide

theorem deleteScopedDbConfig_deleted_split (db : Db) (m : String) (dryRun : Bool)
    (hA : ((discoverMetadataScopedTables db m).map Prod.fst).Nodup)
    (hB : ∀ tc ∈ discoverMetadataScopedTables db m, tc.1 ∉ CHANNEL_ASSIGNMENT_TABLES) :
    (deleteScopedDbConfig db m dryRun).2
      = ((if getScopedSalesChannelIds db m ≠ [] then
            CHANNEL_ASSIGNMENT_TABLES.filter (tableExists db) else []).map
          fun t => countRowsWhere db.tables t
            (assignmentRowMatches (getScopedSalesChannelIds db m))).sum
        + ((discoverMetadataScopedTables db m).map
            fun tc => countRowsWhere db.tables tc.1 fun r => colScopeMatch r tc.2 m).sum := by
  rw [deleteScopedDbConfig_deleted_eq_sum]
  have hAsub : ∀ t ∈ (if getScopedSalesChannelIds db m ≠ [] then
      CHANNEL_ASSIGNMENT_TABLES.filter (tableExists db) else []), t ∈ CHANNEL_ASSIGNMENT_TABLES := by
    intro t ht
    by_cases hsc : getScopedSalesChannelIds db m ≠ []
    · rw [if_pos hsc] at ht
      exact List.mem_of_mem_filter ht
    · rw [if_neg hsc] at ht
      simp at ht
  have hndA : (if getScopedSalesChannelIds db m ≠ [] then
      CHANNEL_ASSIGNMENT_TABLES.filter (tableExists db) else []).Nodup := by
    by_cases hsc : getScopedSalesChannelIds db m ≠ []
    · rw [if_pos hsc]
      exact List.Nodup.filter _ cat_nodup
    · rw [if_neg hsc]
      exact List.nodup_nil
  have hdisj : ∀ t ∈ (if getScopedSalesChannelIds db m ≠ [] then
      CHANNEL_ASSIGNMENT_TABLES.filter (tableExists db) else []),
      t ∉ (discoverMetadataScopedTables db m).map Prod.fst := by
    intro t ht hmd
    obtain ⟨tc, htc, htceq⟩ := List.mem_map.mp hmd
    rw [← htceq] at ht
    exact hB tc htc (hAsub _ ht)
  have happnd : ((if getScopedSalesChannelIds db m ≠ [] then
      CHANNEL_ASSIGNMENT_TABLES.filter (tableExists db) else [])
      ++ (discoverMetadataScopedTables db m).map Prod.fst).Nodup := by
    rw [List.nodup_append]
    exact ⟨hndA, hA, hdisj⟩
  have hperm : (buildScopedDeleteOrder ((discoverMetadataScopedTables db m).map Prod.fst)
      (if getScopedSalesChannelIds db m ≠ [] then
        CHANNEL_ASSIGNMENT_TABLES.filter (tableExists db) else [])).Perm
      ((if getScopedSalesChannelIds db m ≠ [] then
        CHANNEL_ASSIGNMENT_TABLES.filter (tableExists db) else [])
        ++ (discoverMetadataScopedTables db m).map Prod.fst) := by
    rw [List.perm_ext_iff_of_nodup (buildScopedDeleteOrder_nodup _ _) happnd]
    intro t
    rw [buildScopedDeleteOrder_mem, List.mem_append]
  rw [List.Perm.sum_eq (List.Perm.map _ hperm)]
  rw [List.map_append, List.sum_append]
  congr 1
  · refine congrArg List.sum (List.map_congr_left ?_)
    intro t ht
    rw [scopedTableWeight, if_pos ht]
    have hsc : getScopedSalesChannelIds db m ≠ [] := by
      by_cases h : getScopedSalesChannelIds db m ≠ []
      · exact h
      · rw [if_neg h] at ht
        simp at ht
    rw [if_neg hsc]
  · rw [List.map_map]
    refine congrArg List.sum (List.map_congr_left ?_)
    intro tc htc
    show scopedTableWeight m (getScopedSalesChannelIds db m) _ (discoverMetadataScopedTables db m)
      db.tables tc.1 = _
    rw [scopedTableWeight]
    have hnotA : tc.1 ∉ (if getScopedSalesChannelIds db m ≠ [] then
        CHANNEL_ASSIGNMENT_TABLES.filter (tableExists db) else []) := by
      intro hin
      exact hB tc htc (hAsub _ hin)
    rw [if_neg hnotA]
    rw [find?_key_eq_of_nodup hA htc]

/-- Claim C5: the `deleted` counter.  For `delete` (and `overwrite`, which
performs the same cleanup before its insert phase), `report.deleted` equals
the number of stored rows for `(instance_id, market_id)` plus the number of
externally scoped rows removed: the assignment-table rows matched by
`sales_channel_id` plus the metadata-scoped rows matched by
`gp_market_id`.  The hypotheses record that each discovered table is
discovered through a single `jsonb` column and that no discovered table is
one of the fixed assignment tables (their deletion is keyed by
`sales_channel_id` instead). -/
theorem deleted_count_correct (db : Db) (i m : String) (incoming : List StoredRow)
    (dryRun : Bool)
    (hA : ((discoverMetadataScopedTables db m).map Prod.fst).Nodup)
    (hB : ∀ tc ∈ discoverMetadataScopedTables db m, tc.1 ∉ CHANNEL_ASSIGNMENT_TABLES) :
    (executeDelete db i m dryRun).2.deleted
      = (getExistingRows db.storage i m).length
        + ((if getScopedSalesChannelIds db m ≠ [] then
              CHANNEL_ASSIGNMENT_TABLES.filter (tableExists db) else []).map
            fun t => countRowsWhere db.tables t
              (assignmentRowMatches (getScopedSalesChannelIds db m))).sum
        + ((discoverMetadataScopedTables db m).map
            fun tc => countRowsWhere db.tables tc.1 fun r => colScopeMatch r tc.2 m).sum ∧
    (executeOverwrite db i m incoming dryRun).2.deleted
      = (getExistingRows db.storage i m).length
        + ((if getScopedSalesChannelIds db m ≠ [] then
              CHANNEL_ASSIGNMENT_TABLES.filter (tableExists db) else []).map
            fun t => countRowsWhere db.tables t
              (assignmentRowMatches (getScopedSalesChannelIds db m))).sum
        + ((discoverMetadataScopedTables db m).map
            fun tc => countRowsWhere db.tables tc.1 fun r => colScopeMatch r tc.2 m).sum := by
  have hsplit : (deleteScopedDbConfig
      ⟨(if dryRun then db.storage else (deleteStorageRows db.storage i m).1),
        db.tables, db.jsonbCols⟩ m dryRun).2
      = ((if getScopedSalesChannelIds db m ≠ [] then
            CHANNEL_ASSIGNMENT_TABLES.filter (tableExists db) else []).map
          fun t => countRowsWhere db.tables t
            (assignmentRowMatches (getScopedSalesChannelIds db m))).sum
        + ((discoverMetadataScopedTables db m).map
            fun tc => countRowsWhere db.tables tc.1 fun r => colScopeMatch r tc.2 m).sum :=
    deleteScopedDbConfig_deleted_split
      ⟨(if dryRun then db.storage else (deleteStorageRows db.storage i m).1),
        db.tables, db.jsonbCols⟩ m dryRun hA hB
  constructor
  · exact Eq.trans
      (congrArg (fun n => (getExistingRows db.storage i m).length + n) hsplit)
      (Nat.add_assoc _ _ _).symm
  · exact Eq.trans
      (congrArg (fun n => (getExistingRows db.storage i m).length + n) hsplit)
      (Nat.add_assoc _ _ _).symm

/-- Witness for C5: the spec's scenario — 3 stored rows plus 5
metadata-scoped rows — reports `deleted = 8` in a delete dry-run. -/
theorem deleted_count_correct_witness :
    (executeDelete ceDeleteDb "gp-dev" "bonbeauty" true).2.deleted = 8 := by
  have h := (deleted_count_correct ceDeleteDb "gp-dev" "bonbeauty" [] true
    (by decide) (by decide)).1
  rw [h]
  rfl

/-- Counterexample to claim C3 as stated: `product_sales_channel` has a
`jsonb` column in which no row satisfies `metadata ->> 'gp_market_id' = 'm'`,
yet running `delete` for market `m` removes its row (it is deleted through
the `sales_channel_id` join, not the metadata predicate). -/
theorem scope_safety_counterexample :
    ("product_sales_channel", "metadata") ∈ ceAssignDb.jsonbCols ∧
    countRowsWhere ceAssignDb.tables "product_sales_channel"
      (fun r => colScopeMatch r "metadata" "m") = 0 ∧
    alookup ceAssignDb.tables "product_sales_channel"
      = some [[("sales_channel_id", Json.str "sc1"), ("metadata", Json.obj [])]] ∧
    alookup ((executeDelete ceAssignDb "i" "m" false).1).tables "product_sales_channel"
      = some [] := by
  exact ⟨by decide, rfl, rfl, rfl⟩

/-- Claim C3 (amended): scope safety for non-assignment tables.  For any
table `T` other than the three fixed channel-assignment tables, if no row
of `T` satisfies the scope predicate on any column, then `delete` and
`overwrite` neither discover `T` nor change any of its rows, and when `T`
is `sales_channel` no scoped channel ids are derived from it.  (The
processor's own storage table is deleted by `(instance_id, market_id)` key
and is modelled separately; assignment-table rows are removed via the
`sales_channel_id` join, as the counterexample shows.) -/
theorem scope_safety_amended (db : Db) (i m T : String) (incoming : List StoredRow)
    (hT : T ∉ CHANNEL_ASSIGNMENT_TABLES)
    (hnomatch : ∀ r ∈ getTableRows db.tables T, ∀ c, colScopeMatch r c m = false) :
    (∀ c, (T, c) ∉ discoverMetadataScopedTables db m) ∧
    alookup ((executeDelete db i m false).1).tables T = alookup db.tables T ∧
    alookup ((executeOverwrite db i m incoming false).1).tables T = alookup db.tables T ∧
    (T = "sales_channel" → getScopedSalesChannelIds db m = []) := by
  have hdisc : ∀ c, (T, c) ∉ discoverMetadataScopedTables db m := by
    intro c hin
    have hpred := List.of_mem_filter hin
    simp only [Bool.and_eq_true, decide_eq_true_eq] at hpred
    obtain ⟨-, hcount⟩ := hpred
    obtain ⟨r, hr⟩ := List.exists_mem_of_length_pos hcount
    have hr2 := List.mem_filter.mp hr
    rw [hnomatch r hr2.1 c] at hr2
    simp at hr2
  have hT2 : ∀ tc ∈ discoverMetadataScopedTables db m, tc.1 ≠ T := by
    intro tc htc heq
    obtain ⟨t1, t2⟩ := tc
    subst heq
    exact hdisc t2 htc
  have hT1 : ∀ (scIds : List String),
      T ∉ (if scIds ≠ [] then CHANNEL_ASSIGNMENT_TABLES.filter (tableExists db) else []) := by
    intro scIds hin
    by_cases hsc : scIds ≠ []
    · rw [if_pos hsc] at hin
      exact hT (List.mem_of_mem_filter hin)
    · rw [if_neg hsc] at hin
      simp at hin
  refine ⟨hdisc, ?_, ?_, ?_⟩
  · exact scopedFold_tables_preserve m (getScopedSalesChannelIds db m) _ _ T
      (hT1 (getScopedSalesChannelIds db m)) hT2 _ _
  · exact scopedFold_tables_preserve m (getScopedSalesChannelIds db m) _ _ T
      (hT1 (getScopedSalesChannelIds db m)) hT2 _ _
  · intro hTsc
    subst hTsc
    rw [getScopedSalesChannelIds]
    by_cases hex : tableExists db "sales_channel" = true
    · rw [if_pos hex]
      refine List.filterMap_eq_nil_iff.mpr ?_
      intro r hr
      rw [hnomatch r hr "metadata"]
      rfl
    · rw [if_neg hex]

/-- Witness for the amended C3 at a concrete database. -/
theorem scope_safety_amended_witness :
    (∀ c, ("brand", c) ∉ discoverMetadataScopedTables ceScopeDb "m") ∧
    alookup ((executeDelete ceScopeDb "i" "m" false).1).tables "brand"
      = alookup ceScopeDb.tables "brand" ∧
    alookup ((executeOverwrite ceScopeDb "i" "m" [] false).1).tables "brand"
      = alookup ceScopeDb.tables "brand" ∧
    ("brand" = "sales_channel" → getScopedSalesChannelIds ceScopeDb "m" = []) :=
  scope_safety_amended ceScopeDb "i" "m" "brand" [] (by decide)
    (by
      intro r hr c
      simp [ceScopeDb, getTableRows, alookup] at hr)

end GpConfigMcp